import Mathlib

/-!
Verification of the in-memory cache engine (LRU and LFU) of this repository.

Sources embedded here:
* `LFUCache` (with `CacheNode` and `DoublyLinkedList`) — the LFU cache;
* `LRUCache` from `custom/LRUCache.java` — the hand-rolled LRU cache;
* the `LRUCache` of `lld/Design_LRU_Cache.md` — the design-document LRU cache
  (with `remove`).

Modelling conventions:
* Java `int` keys and values become `Int`; frequencies, counters and list
  lengths become `Nat` (no claim involves 32-bit overflow, which would need
  about 2^31 operations to reach).
* A `java.util.HashMap` becomes an association list with distinct keys,
  with lookup / insert-or-overwrite / remove operations (`alookup`, `aset`,
  `aerase`).
* A sentinel-bounded doubly linked list becomes a `List` whose head is the
  node after the dummy head (most recently placed) and whose last element is
  `tail.prev` (least recently placed).
* The `keyToNodeMap` (resp. the `cache` map of the LRU variants) is implicit:
  the code keeps it in bijection with the linked structure on every completed
  operation, and each node's `frequency` field always equals the frequency of
  the list holding it, so a node is represented by its `(key, value)` pair in
  its bucket.  All map reads and writes of the source are translated to reads
  and writes of the linked structure under this bijection.
* A Java `NullPointerException` (evicting through a missing or empty bucket,
  or `removeLast()` returning `null`) is modelled by `Option.none`.
-/

/-! ### Association lists (java.util.HashMap) -/

def alookup {κ α : Type} [DecidableEq κ] (k : κ) : List (κ × α) → Option α
  | [] => none
  | (k', v) :: l => if k' = k then some v else alookup k l

def aset {κ α : Type} [DecidableEq κ] (k : κ) (v : α) : List (κ × α) → List (κ × α)
  | [] => [(k, v)]
  | (k', v') :: l => if k' = k then (k, v) :: l else (k', v') :: aset k v l

def aerase {κ α : Type} [DecidableEq κ] (k : κ) : List (κ × α) → List (κ × α)
  | [] => []
  | (k', v) :: l => if k' = k then l else (k', v) :: aerase k l

/-! ### Entries and entry lists -/

/-- A stored node, reduced to its `(key, value)` pair (see the modelling
conventions above). -/
abbrev Entry := Int × Int

/-- The keys of a list of entries. -/
def entKeys (l : List Entry) : List Int := l.map Prod.fst

/-- Find the value stored for `k` in a list of entries. -/
def entFind (k : Int) : List Entry → Option Int
  | [] => none
  | (k', v) :: l => if k' = k then some v else entFind k l

/-- Unlink the node with key `k` from a doubly linked list of entries
(`removeNode` / `DoublyLinkedList.remove`: pointer surgery removes exactly
the one node). -/
def eraseEntry (k : Int) : List Entry → List Entry
  | [] => []
  | (k', v) :: l => if k' = k then l else (k', v) :: eraseEntry k l

/-! ### The LFU cache (`class LFUCache`) -/

/-- A frequency bucket: the `DoublyLinkedList` of nodes of one frequency,
most recently touched node first (the node after the dummy head). -/
abbrev Bucket := List Entry

/-- State of `LFUCache`: `capacity`, `minFrequency`, and
`frequencyToListMap` as an association list frequency ↦ bucket.
`keyToNodeMap` is implicit (see modelling conventions). -/
structure LFUCache where
  capacity : Int
  minFrequency : Nat
  freqLists : List (Nat × Bucket)
  deriving DecidableEq, Repr

/-- `new LFUCache(capacity)`: stores the capacity unchecked, `minFrequency = 0`,
both maps empty. -/
def lfuNew (capacity : Int) : LFUCache :=
  { capacity := capacity, minFrequency := 0, freqLists := [] }

/-- Look up `keyToNodeMap.get(key)`: the node's frequency and value,
found by scanning the frequency lists (bijection). -/
def lfuFindAux (k : Int) : List (Nat × Bucket) → Option (Nat × Int)
  | [] => none
  | (f, l) :: bs =>
    match entFind k l with
    | some v => some (f, v)
    | none => lfuFindAux k bs

/-- `keyToNodeMap.containsKey(key)` / `keyToNodeMap.get(key)` as a pair of
the node's frequency and value. -/
def lfuFind (s : LFUCache) (k : Int) : Option (Nat × Int) :=
  lfuFindAux k s.freqLists

/-- All entries held by a frequency-list map, in bucket order. -/
def bsEntries (bs : List (Nat × Bucket)) : List Entry :=
  (bs.map Prod.snd).flatten

/-- All stored entries, in bucket order. -/
def lfuEntries (s : LFUCache) : List Entry :=
  bsEntries s.freqLists

/-- `keyToNodeMap.size()`. -/
def lfuSize (s : LFUCache) : Nat :=
  (lfuEntries s).length

/-- The set of stored keys, as a list. -/
def lfuKeys (s : LFUCache) : List Int :=
  entKeys (lfuEntries s)

/-- `addNodeToFrequencyList(node)` for a node of frequency `f`: create the
bucket if absent, then link the node right after the dummy head. -/
def addNodeToFrequencyList (f : Nat) (e : Entry) (bs : List (Nat × Bucket)) :
    List (Nat × Bucket) :=
  match alookup f bs with
  | none => aset f [e] bs
  | some l => aset f (e :: l) bs

/-- `updateFrequency(node)` for the node `(k, v)` currently at frequency `f`
(`v` is the node's value, already overwritten by `put` on the update path):
unlink from the bucket of `f`, increment the node's frequency, drop the
bucket of `f` if it became empty (bumping `minFrequency` when it pointed
there), then add the node to the bucket of `f + 1`. -/
def updateFrequency (s : LFUCache) (k : Int) (f : Nat) (v : Int) : LFUCache :=
  let l1 := eraseEntry k ((alookup f s.freqLists).getD [])
  let bs1 := if l1 = [] then aerase f s.freqLists else aset f l1 s.freqLists
  let mf1 := if l1 = [] ∧ s.minFrequency = f then s.minFrequency + 1 else s.minFrequency
  { s with minFrequency := mf1,
           freqLists := addNodeToFrequencyList (f + 1) (k, v) bs1 }

/-- `LFUCache.get(key)`: `-1` on a miss, otherwise the node's value after
`updateFrequency`. -/
def lfuGet (s : LFUCache) (k : Int) : Int × LFUCache :=
  match lfuFind s k with
  | none => (-1, s)
  | some (f, v) => (v, updateFrequency s k f v)

/-- The node `put` would evict: `frequencyToListMap.get(minFrequency).tail.prev`
(`none` when the bucket is missing or empty — in Java a `NullPointerException`
or dummy node). -/
def lfuEvictChoice (s : LFUCache) : Option Entry :=
  match alookup s.minFrequency s.freqLists with
  | none => none
  | some l => l.getLast?

/-- The eviction block of `LFUCache.put`: remove
`frequencyToListMap.get(minFrequency).tail.prev` from both maps, dropping the
bucket if it became empty.  `none` models the `NullPointerException` raised
when the `minFrequency` bucket is missing, or the corruption-then-crash when
it is present but empty (its `tail.prev` is the dummy head). -/
def lfuEvict (s : LFUCache) : Option LFUCache :=
  match alookup s.minFrequency s.freqLists with
  | none => none
  | some [] => none
  | some (e :: l) =>
    let l1 := (e :: l).dropLast
    some { s with freqLists := if l1 = [] then aerase s.minFrequency s.freqLists
                               else aset s.minFrequency l1 s.freqLists }

/-- `LFUCache.put(key, value)`: no-op at capacity 0; overwrite and
`updateFrequency` when the key is present; otherwise evict when
`keyToNodeMap.size() == capacity`, then insert the new node with frequency 1
and set `minFrequency = 1`. -/
def lfuPut (s : LFUCache) (k v : Int) : Option LFUCache :=
  if s.capacity = 0 then some s
  else
    match lfuFind s k with
    | some (f, _) => some (updateFrequency s k f v)
    | none =>
      match (if (lfuSize s : Int) = s.capacity then lfuEvict s else some s) with
      | none => none
      | some s1 =>
        some { s1 with minFrequency := 1,
                       freqLists := addNodeToFrequencyList 1 (k, v) s1.freqLists }

/-- One public operation on the LFU cache. -/
inductive LFUOp where
  | get (k : Int)
  | put (k v : Int)
  deriving DecidableEq, Repr

/-- Run one operation (`none` = the operation raised). -/
def lfuStep (s : LFUCache) : LFUOp → Option LFUCache
  | .get k => some (lfuGet s k).2
  | .put k v => lfuPut s k v

/-- Run a sequence of operations from a given state. -/
def lfuRunFrom (s : LFUCache) : List LFUOp → Option LFUCache
  | [] => some s
  | op :: ops =>
    match lfuStep s op with
    | none => none
    | some s' => lfuRunFrom s' ops

/-- Run a sequence of operations on a freshly constructed cache. -/
def lfuRun (cap : Int) (ops : List LFUOp) : Option LFUCache :=
  lfuRunFrom (lfuNew cap) ops

/-! ### The custom LRU cache (`custom/LRUCache.java`) -/

/-- State of the hand-rolled `LRUCache`: `capacity` and the recency list
(most recently used first; `tail.prev` is the last element).  The `cache`
hash map is implicit (bijection). -/
structure LRUCache where
  capacity : Int
  entries : List Entry
  deriving DecidableEq, Repr

/-- `new LRUCache(capacity)`: stores the capacity unchecked, empty map,
empty list. -/
def lruNew (capacity : Int) : LRUCache :=
  { capacity := capacity, entries := [] }

/-- `LRUCache.put`: if present, unlink the old node; make a fresh node,
overwrite the map entry and link it at the head; then if `size > capacity`,
unlink `tail.prev` and remove its key from the map. -/
def lruPut (s : LRUCache) (k v : Int) : LRUCache :=
  let es :=
    match entFind k s.entries with
    | some _ => eraseEntry k s.entries
    | none => s.entries
  let es1 := (k, v) :: es
  if (es1.length : Int) > s.capacity then { s with entries := es1.dropLast }
  else { s with entries := es1 }

/-- `LRUCache.get`: `null` on a miss; otherwise unlink the node, relink it at
the head, and return its value. -/
def lruGet (s : LRUCache) (k : Int) : Option Int × LRUCache :=
  match entFind k s.entries with
  | none => (none, s)
  | some v => (some v, { s with entries := (k, v) :: eraseEntry k s.entries })

/-- Number of stored entries (`cache.size()`). -/
def lruSize (s : LRUCache) : Nat := s.entries.length

/-- The stored keys, most recently used first. -/
def lruKeys (s : LRUCache) : List Int := s.entries.map Prod.fst

/-- One public operation on the custom LRU cache. -/
inductive LRUOp where
  | get (k : Int)
  | put (k v : Int)
  deriving DecidableEq, Repr

/-- Run one operation (both operations are total in this implementation). -/
def lruStep (s : LRUCache) : LRUOp → LRUCache
  | .get k => (lruGet s k).2
  | .put k v => lruPut s k v

/-- Run a sequence of operations from a given state. -/
def lruRunFrom (s : LRUCache) : List LRUOp → LRUCache
  | [] => s
  | op :: ops => lruRunFrom (lruStep s op) ops

/-- Run a sequence of operations on a freshly constructed cache. -/
def lruRun (cap : Int) (ops : List LRUOp) : LRUCache :=
  lruRunFrom (lruNew cap) ops

/-! ### The design-document LRU cache (`lld/Design_LRU_Cache.md`) -/

/-- State of the `LRUCache` of the design document: `capacity` and the
recency list, most recently used first.  The `cache` map is implicit. -/
structure MdCache where
  capacity : Int
  entries : List Entry
  deriving DecidableEq, Repr

/-- Its constructor: stores the capacity unchecked, empty structures. -/
def mdNew (capacity : Int) : MdCache :=
  { capacity := capacity, entries := [] }

/-- Its `get`: `null` on a miss, else `moveToFront` and return the value. -/
def mdGet (s : MdCache) (k : Int) : Option Int × MdCache :=
  match entFind k s.entries with
  | none => (none, s)
  | some v => (some v, { s with entries := (k, v) :: eraseEntry k s.entries })

/-- Its `put`: overwrite and `moveToFront` when present; otherwise when
`size >= capacity` call `removeLast()` — which returns `null` on an empty
list, so the following `lru.key` raises a `NullPointerException` (`none`) —
then link the new node at the front. -/
def mdPut (s : MdCache) (k v : Int) : Option MdCache :=
  match entFind k s.entries with
  | some _ => some { s with entries := (k, v) :: eraseEntry k s.entries }
  | none =>
    if (s.entries.length : Int) ≥ s.capacity then
      match s.entries.getLast? with
      | none => none
      | some _ => some { s with entries := (k, v) :: s.entries.dropLast }
    else some { s with entries := (k, v) :: s.entries }

/-- Its `remove`: `cache.remove(key)` and, when a node came back, unlink it;
a miss changes nothing. -/
def mdRemove (s : MdCache) (k : Int) : MdCache :=
  match entFind k s.entries with
  | none => s
  | some _ => { s with entries := eraseEntry k s.entries }

/-- Number of stored entries. -/
def mdSize (s : MdCache) : Nat := s.entries.length

/-- The stored keys, most recently used first. -/
def mdKeys (s : MdCache) : List Int := s.entries.map Prod.fst

/-- One public operation on the design-document LRU cache. -/
inductive MdOp where
  | get (k : Int)
  | put (k v : Int)
  | remove (k : Int)
  deriving DecidableEq, Repr

/-- Run one operation (`none` = the operation raised). -/
def mdStep (s : MdCache) : MdOp → Option MdCache
  | .get k => some (mdGet s k).2
  | .put k v => mdPut s k v
  | .remove k => some (mdRemove s k)

/-- Run a sequence of operations from a given state. -/
def mdRunFrom (s : MdCache) : List MdOp → Option MdCache
  | [] => some s
  | op :: ops =>
    match mdStep s op with
    | none => none
    | some s' => mdRunFrom s' ops

/-- Run a sequence of operations on a freshly constructed cache. -/
def mdRun (cap : Int) (ops : List MdOp) : Option MdCache :=
  mdRunFrom (mdNew cap) ops

/-! ### Ghost instrumentation of the LFU cache

To state the "least recently touched" tie-break, an LFU run is shadowed by a
ghost clock and a ghost map recording, for every key, the time of its last
touch (a touch is a `get` hit or any effective `put` of the key).  The ghost
data never influences the cache state, which evolves exactly by `lfuStep`. -/

/-- An LFU state together with the ghost touch data. -/
structure LFUInst where
  st : LFUCache
  clock : Nat
  touch : List (Int × Nat)
  deriving DecidableEq, Repr

/-- The time of the last touch of `k` (0 for a never-touched key). -/
def touchOf (tm : List (Int × Nat)) (k : Int) : Nat :=
  (alookup k tm).getD 0

/-- A freshly constructed cache with ghost data. -/
def lfuINew (cap : Int) : LFUInst :=
  { st := lfuNew cap, clock := 0, touch := [] }

/-- Run one operation, advancing the ghost clock and recording the touch
when the operation touches the key (a `get` hit, or a `put` on a cache of
nonzero capacity). -/
def lfuIStep (a : LFUInst) : LFUOp → Option LFUInst
  | .get k =>
    some { st := (lfuGet a.st k).2, clock := a.clock + 1,
           touch := if (lfuFind a.st k).isSome then aset k a.clock a.touch else a.touch }
  | .put k v =>
    match lfuPut a.st k v with
    | none => none
    | some s' =>
      some { st := s', clock := a.clock + 1,
             touch := if a.st.capacity = 0 then a.touch else aset k a.clock a.touch }

/-- Run a sequence of operations from a given instrumented state. -/
def lfuIRunFrom (a : LFUInst) : List LFUOp → Option LFUInst
  | [] => some a
  | op :: ops =>
    match lfuIStep a op with
    | none => none
    | some a' => lfuIRunFrom a' ops

/-- Run a sequence of operations on a freshly constructed instrumented cache. -/
def lfuIRun (cap : Int) (ops : List LFUOp) : Option LFUInst :=
  lfuIRunFrom (lfuINew cap) ops

/-! ### Invariants -/

/-- The keys of an association list. -/
def akeys {κ α : Type} (l : List (κ × α)) : List κ := l.map Prod.fst

/-- Structural invariant of an LFU cache state, maintained by every
completed operation. -/
structure LFUInv (s : LFUCache) : Prop where
  freqNodup : (akeys s.freqLists).Nodup
  bucketsNE : ∀ p ∈ s.freqLists, p.2 ≠ []
  freqsPos : ∀ p ∈ s.freqLists, 1 ≤ p.1
  keysNodup : (lfuKeys s).Nodup
  minFreqLe : ∀ p ∈ s.freqLists, s.minFrequency ≤ p.1
  minFreqMem : s.freqLists ≠ [] → (alookup s.minFrequency s.freqLists).isSome
  sizeLe : 0 ≤ s.capacity → (lfuSize s : Int) ≤ s.capacity

/-- Ghost invariant: every stored entry was touched before now, and every
bucket lists its entries in strictly decreasing order of last touch
(most recently touched first). -/
structure LFUInstInv (a : LFUInst) : Prop where
  stInv : LFUInv a.st
  touchBound : ∀ p ∈ a.st.freqLists, ∀ e ∈ p.2, touchOf a.touch e.1 < a.clock
  touchSorted : ∀ p ∈ a.st.freqLists,
    (p.2.map fun e => touchOf a.touch e.1).Pairwise (· > ·)


/-! ### Lemmas: association-list primitives -/

@[simp]
theorem akeys_nil {κ α : Type} : akeys ([] : List (κ × α)) = [] := rfl

@[simp]
theorem akeys_cons {κ α : Type} (p : κ × α) (l : List (κ × α)) :
    akeys (p :: l) = p.1 :: akeys l := rfl

@[simp]
theorem akeys_append {κ α : Type} (p q : List (κ × α)) :
    akeys (p ++ q) = akeys p ++ akeys q := by
  simp [akeys]

section AssocLemmas

variable {κ α : Type} [DecidableEq κ]

theorem alookup_mem {k : κ} {v : α} {l : List (κ × α)}
    (h : alookup k l = some v) : (k, v) ∈ l := by
  induction l with
  | nil => simp [alookup] at h
  | cons p l ih =>
    obtain ⟨k', v'⟩ := p
    rw [alookup] at h
    split at h
    · next heq => obtain rfl := Option.some.inj h; subst heq; exact List.mem_cons_self ..
    · exact List.mem_cons_of_mem _ (ih h)

theorem mem_akeys_of_alookup {k : κ} {v : α} {l : List (κ × α)}
    (h : alookup k l = some v) : k ∈ akeys l :=
  List.mem_map.2 ⟨(k, v), alookup_mem h, rfl⟩

theorem alookup_eq_none {k : κ} {l : List (κ × α)} :
    alookup k l = none ↔ k ∉ akeys l := by
  induction l with
  | nil => simp [alookup]
  | cons p l ih =>
    obtain ⟨k', v'⟩ := p
    rw [alookup]
    by_cases hk : k' = k
    · simp [hk]
    · have hk' : ¬k = k' := fun h => hk h.symm
      simp [hk, hk', ih]

theorem alookup_decomp {k : κ} {v : α} {l : List (κ × α)}
    (h : alookup k l = some v) :
    ∃ p q, l = p ++ (k, v) :: q ∧ k ∉ akeys p := by
  induction l with
  | nil => simp [alookup] at h
  | cons hd l ih =>
    obtain ⟨k', v'⟩ := hd
    rw [alookup] at h
    split at h
    · next heq =>
      obtain rfl := Option.some.inj h; subst heq
      exact ⟨[], l, rfl, by simp⟩
    · next hne =>
      obtain ⟨p, q, rfl, hp⟩ := ih h
      have hk' : ¬k = k' := fun h' => hne h'.symm
      exact ⟨(k', v') :: p, q, rfl, by simp [hp, hk']⟩

theorem aset_decomp {k : κ} (v : α) {w : α} {p q : List (κ × α)}
    (hp : k ∉ akeys p) :
    aset k v (p ++ (k, w) :: q) = p ++ (k, v) :: q := by
  induction p with
  | nil => simp [aset]
  | cons hd p ih =>
    obtain ⟨k', v'⟩ := hd
    simp only [akeys_cons, List.mem_cons] at hp
    push_neg at hp
    have hne : ¬k' = k := fun h => hp.1 h.symm
    simp [aset, hne, ih hp.2]

theorem aerase_decomp {k : κ} {w : α} {p q : List (κ × α)}
    (hp : k ∉ akeys p) :
    aerase k (p ++ (k, w) :: q) = p ++ q := by
  induction p with
  | nil => simp [aerase]
  | cons hd p ih =>
    obtain ⟨k', v'⟩ := hd
    simp only [akeys_cons, List.mem_cons] at hp
    push_neg at hp
    have hne : ¬k' = k := fun h => hp.1 h.symm
    simp [aerase, hne, ih hp.2]

theorem aset_of_none {k : κ} (v : α) {l : List (κ × α)}
    (h : alookup k l = none) : aset k v l = l ++ [(k, v)] := by
  induction l with
  | nil => simp [aset]
  | cons hd l ih =>
    obtain ⟨k', v'⟩ := hd
    rw [alookup] at h
    split at h
    · exact absurd h (by simp)
    · next hne => simp [aset, hne, ih h]

theorem alookup_aset_self {k : κ} {v : α} {l : List (κ × α)} :
    alookup k (aset k v l) = some v := by
  induction l with
  | nil => simp [aset, alookup]
  | cons hd l ih =>
    obtain ⟨k', v'⟩ := hd
    by_cases hk : k' = k <;> simp [aset, alookup, hk, ih]

theorem alookup_aset_ne {k k' : κ} {v : α} {l : List (κ × α)} (h : k' ≠ k) :
    alookup k' (aset k v l) = alookup k' l := by
  have hk' : ¬k = k' := fun h' => h h'.symm
  induction l with
  | nil => simp [aset, alookup, hk']
  | cons hd l ih =>
    obtain ⟨k'', v''⟩ := hd
    by_cases hk : k'' = k
    · subst hk
      have hne : ¬k'' = k' := fun h' => h h'.symm
      simp [aset, alookup, hne]
    · simp [aset, hk, alookup, ih]

theorem alookup_aerase_ne {k k' : κ} {l : List (κ × α)} (h : k' ≠ k) :
    alookup k' (aerase k l) = alookup k' l := by
  induction l with
  | nil => simp [aerase]
  | cons hd l ih =>
    obtain ⟨k'', v''⟩ := hd
    by_cases hk : k'' = k
    · subst hk
      have hne : ¬k'' = k' := fun h' => h h'.symm
      simp [aerase, alookup, hne]
    · simp [aerase, hk, alookup, ih]

theorem mem_aset_cases {k : κ} {v : α} {p : κ × α} {l : List (κ × α)}
    (h : p ∈ aset k v l) : p = (k, v) ∨ p ∈ l := by
  induction l with
  | nil => simpa [aset] using h
  | cons hd l ih =>
    obtain ⟨k', v'⟩ := hd
    by_cases hk : k' = k
    · subst hk
      rcases (by simpa [aset] using h : p = (k', v) ∨ p ∈ l) with h' | h'
      · exact Or.inl h'
      · exact Or.inr (List.mem_cons_of_mem _ h')
    · rcases (by simpa [aset, hk] using h : p = (k', v') ∨ p ∈ aset k v l) with h' | h'
      · exact Or.inr (by simp [h'])
      · rcases ih h' with h'' | h''
        · exact Or.inl h''
        · exact Or.inr (List.mem_cons_of_mem _ h'')

theorem aerase_sublist (k : κ) (l : List (κ × α)) : List.Sublist (aerase k l) l := by
  induction l with
  | nil => simp [aerase]
  | cons hd l ih =>
    obtain ⟨k', v'⟩ := hd
    by_cases hk : k' = k
    · rw [aerase, if_pos hk]
      exact List.sublist_cons_of_sublist _ (List.Sublist.refl l)
    · rw [aerase, if_neg hk]
      exact List.Sublist.cons₂ _ ih

theorem mem_aerase {k : κ} {p : κ × α} {l : List (κ × α)}
    (h : p ∈ aerase k l) : p ∈ l :=
  List.Sublist.mem h (aerase_sublist k l)

theorem akeys_aset_of_some {k : κ} {v w : α} {l : List (κ × α)}
    (h : alookup k l = some w) : akeys (aset k v l) = akeys l := by
  obtain ⟨p, q, rfl, hp⟩ := alookup_decomp h
  rw [aset_decomp v hp]
  simp

theorem akeys_aset_nodup {k : κ} {v : α} {l : List (κ × α)}
    (h : (akeys l).Nodup) : (akeys (aset k v l)).Nodup := by
  cases hl : alookup k l with
  | none =>
    rw [aset_of_none v hl]
    simpa [List.nodup_append, alookup_eq_none.1 hl] using h
  | some w => rwa [akeys_aset_of_some hl]

theorem akeys_aerase_nodup {k : κ} {l : List (κ × α)}
    (h : (akeys l).Nodup) : (akeys (aerase k l)).Nodup :=
  List.Nodup.sublist (List.Sublist.map Prod.fst (aerase_sublist k l)) h

end AssocLemmas

/-! ### Lemmas: entry lists -/

@[simp]
theorem entKeys_nil : entKeys [] = [] := rfl

@[simp]
theorem entKeys_cons (e : Entry) (l : List Entry) :
    entKeys (e :: l) = e.1 :: entKeys l := rfl

@[simp]
theorem entKeys_append (p q : List Entry) :
    entKeys (p ++ q) = entKeys p ++ entKeys q := by
  simp [entKeys]

theorem entFind_eq_none {k : Int} {l : List Entry} :
    entFind k l = none ↔ k ∉ entKeys l := by
  induction l with
  | nil => simp [entFind]
  | cons e l ih =>
    obtain ⟨k', v'⟩ := e
    rw [entFind]
    by_cases hk : k' = k
    · simp [hk]
    · have hk' : ¬k = k' := fun h => hk h.symm
      simp [hk, hk', ih]

theorem entFind_mem {k v : Int} {l : List Entry}
    (h : entFind k l = some v) : (k, v) ∈ l := by
  induction l with
  | nil => simp [entFind] at h
  | cons e l ih =>
    obtain ⟨k', v'⟩ := e
    rw [entFind] at h
    split at h
    · next heq => obtain rfl := Option.some.inj h; subst heq; exact List.mem_cons_self ..
    · exact List.mem_cons_of_mem _ (ih h)

theorem entFind_decomp {k v : Int} {l : List Entry}
    (h : entFind k l = some v) :
    ∃ p q, l = p ++ (k, v) :: q ∧ k ∉ entKeys p ∧ eraseEntry k l = p ++ q := by
  induction l with
  | nil => simp [entFind] at h
  | cons e l ih =>
    obtain ⟨k', v'⟩ := e
    rw [entFind] at h
    split at h
    · next heq =>
      obtain rfl := Option.some.inj h; subst heq
      exact ⟨[], l, rfl, by simp, by simp [eraseEntry]⟩
    · next hne =>
      obtain ⟨p, q, rfl, hp, he⟩ := ih h
      have hk' : ¬k = k' := fun h' => hne h'.symm
      exact ⟨(k', v') :: p, q, rfl, by simp [hp, hk'],
        by simp [eraseEntry, hne, he]⟩

theorem eraseEntry_sublist (k : Int) (l : List Entry) :
    List.Sublist (eraseEntry k l) l := by
  induction l with
  | nil => simp [eraseEntry]
  | cons e l ih =>
    obtain ⟨k', v'⟩ := e
    by_cases hk : k' = k
    · rw [eraseEntry, if_pos hk]
      exact List.sublist_cons_of_sublist _ (List.Sublist.refl l)
    · rw [eraseEntry, if_neg hk]
      exact List.Sublist.cons₂ _ ih

theorem eraseEntry_of_none {k : Int} {l : List Entry}
    (h : entFind k l = none) : eraseEntry k l = l := by
  induction l with
  | nil => simp [eraseEntry]
  | cons e l ih =>
    obtain ⟨k', v'⟩ := e
    rw [entFind] at h
    split at h
    · exact absurd h (by simp)
    · next hne => simp [eraseEntry, hne, ih h]

theorem eraseEntry_length {k v : Int} {l : List Entry}
    (h : entFind k l = some v) : (eraseEntry k l).length + 1 = l.length := by
  obtain ⟨p, q, rfl, hp, he⟩ := entFind_decomp h
  simp [he]
  omega

theorem entFind_of_mem {k v : Int} {l : List Entry}
    (hn : (entKeys l).Nodup) (h : (k, v) ∈ l) : entFind k l = some v := by
  induction l with
  | nil => simp at h
  | cons e l ih =>
    obtain ⟨k', v'⟩ := e
    simp only [entKeys_cons, List.nodup_cons] at hn
    rcases List.mem_cons.1 h with h' | h'
    · obtain ⟨rfl, rfl⟩ := Prod.mk.injEq .. ▸ h'
      simp [entFind]
    · have hk : ¬k' = k := by
        rintro rfl
        exact hn.1 (List.mem_map.2 ⟨(k', v), h', rfl⟩)
      rw [entFind, if_neg hk]
      exact ih hn.2 h'

/-! ### Lemmas: the frequency-list map as a whole -/

@[simp]
theorem bsEntries_nil : bsEntries [] = [] := rfl

@[simp]
theorem bsEntries_cons (p : Nat × Bucket) (bs : List (Nat × Bucket)) :
    bsEntries (p :: bs) = p.2 ++ bsEntries bs := by
  simp [bsEntries]

@[simp]
theorem bsEntries_append (p q : List (Nat × Bucket)) :
    bsEntries (p ++ q) = bsEntries p ++ bsEntries q := by
  simp [bsEntries]

theorem lfuFindAux_eq_none {k : Int} {bs : List (Nat × Bucket)} :
    lfuFindAux k bs = none ↔ k ∉ entKeys (bsEntries bs) := by
  induction bs with
  | nil => simp [lfuFindAux]
  | cons p bs ih =>
    obtain ⟨f, l⟩ := p
    rw [lfuFindAux]
    cases hf : entFind k l with
    | some v =>
      have hk : k ∈ entKeys l := List.mem_map.2 ⟨(k, v), entFind_mem hf, rfl⟩
      simp [hf, hk]
    | none =>
      have := entFind_eq_none.1 hf
      simp [this, ih]

theorem lfuFindAux_mem {k : Int} {f : Nat} {v : Int} {bs : List (Nat × Bucket)}
    (h : lfuFindAux k bs = some (f, v)) :
    ∃ L, (f, L) ∈ bs ∧ entFind k L = some v := by
  induction bs with
  | nil => simp [lfuFindAux] at h
  | cons p bs ih =>
    obtain ⟨g, l⟩ := p
    rw [lfuFindAux] at h
    split at h
    · next v' hv =>
      obtain ⟨rfl, rfl⟩ := Prod.mk.injEq .. ▸ Option.some.inj h
      exact ⟨l, List.mem_cons_self .., hv⟩
    · obtain ⟨L, hL, hfind⟩ := ih h
      exact ⟨L, List.mem_cons_of_mem _ hL, hfind⟩

theorem lfuFindAux_alookup {k : Int} {f : Nat} {v : Int} {bs : List (Nat × Bucket)}
    (hn : (akeys bs).Nodup) (h : lfuFindAux k bs = some (f, v)) :
    ∃ L, alookup f bs = some L ∧ entFind k L = some v := by
  induction bs with
  | nil => simp [lfuFindAux] at h
  | cons p bs ih =>
    obtain ⟨g, l⟩ := p
    simp only [akeys_cons, List.nodup_cons] at hn
    rw [lfuFindAux] at h
    split at h
    · next v' hv =>
      obtain ⟨rfl, rfl⟩ := Prod.mk.injEq .. ▸ Option.some.inj h
      exact ⟨l, by rw [alookup, if_pos rfl], hv⟩
    · obtain ⟨L, hL, hfind⟩ := ih hn.2 h
      have hg : ¬g = f := by
        rintro rfl
        exact hn.1 (mem_akeys_of_alookup hL)
      exact ⟨L, by rw [alookup, if_neg hg]; exact hL, hfind⟩

theorem lfuFindAux_of_mem {k : Int} {f : Nat} {v : Int} {L : Bucket}
    {bs : List (Nat × Bucket)}
    (hkeys : (entKeys (bsEntries bs)).Nodup) (hmem : (f, L) ∈ bs)
    (hfind : entFind k L = some v) :
    lfuFindAux k bs = some (f, v) := by
  induction bs with
  | nil => simp at hmem
  | cons p bs ih =>
    obtain ⟨g, m⟩ := p
    simp only [bsEntries_cons, entKeys_append, List.nodup_append] at hkeys
    rcases List.mem_cons.1 hmem with h' | h'
    · obtain ⟨rfl, rfl⟩ := Prod.mk.injEq .. ▸ h'
      rw [lfuFindAux, hfind]
    · have hk : k ∈ entKeys (bsEntries bs) := by
        have : (k, v) ∈ bsEntries bs := by
          simp only [bsEntries]
          exact List.mem_flatten.2 ⟨L, List.mem_map.2 ⟨(f, L), h', rfl⟩, entFind_mem hfind⟩
        exact List.mem_map.2 ⟨(k, v), this, rfl⟩
      have hm : entFind k m = none :=
        entFind_eq_none.2 fun hkm => hkeys.2.2 hkm hk
      rw [lfuFindAux, hm]
      exact ih hkeys.2.1 h'

/-! ### Lemmas: addNodeToFrequencyList -/

theorem addNode_cons_ne {f g : Nat} {e : Entry} {m : Bucket}
    {bs : List (Nat × Bucket)} (h : g ≠ f) :
    addNodeToFrequencyList f e ((g, m) :: bs) =
      (g, m) :: addNodeToFrequencyList f e bs := by
  rw [addNodeToFrequencyList, addNodeToFrequencyList, alookup, if_neg h]
  cases alookup f bs <;> simp [aset, h]

theorem bsEntries_addNode_perm (f : Nat) (e : Entry) (bs : List (Nat × Bucket)) :
    List.Perm (bsEntries (addNodeToFrequencyList f e bs)) (e :: bsEntries bs) := by
  induction bs with
  | nil => simp [addNodeToFrequencyList, alookup, aset]
  | cons p bs ih =>
    obtain ⟨g, m⟩ := p
    by_cases hg : g = f
    · subst hg
      rw [addNodeToFrequencyList, alookup, if_pos rfl]
      simp [aset]
    · rw [addNode_cons_ne hg]
      simp only [bsEntries_cons]
      exact (List.Perm.append_left m ih).trans List.perm_middle

theorem mem_addNode_cases {f : Nat} {e : Entry} {p : Nat × Bucket}
    {bs : List (Nat × Bucket)} (h : p ∈ addNodeToFrequencyList f e bs) :
    (∃ m, alookup f bs = some m ∧ p = (f, e :: m)) ∨
      (alookup f bs = none ∧ p = (f, [e])) ∨ p ∈ bs := by
  rw [addNodeToFrequencyList] at h
  cases hl : alookup f bs with
  | none =>
    rw [hl, aset_of_none _ hl] at h
    rcases List.mem_append.1 h with h' | h'
    · exact Or.inr (Or.inr h')
    · exact Or.inr (Or.inl ⟨rfl, by simpa using h'⟩)
  | some m =>
    rw [hl] at h
    rcases mem_aset_cases h with h' | h'
    · exact Or.inl ⟨m, rfl, h'⟩
    · exact Or.inr (Or.inr h')

theorem akeys_addNode_nodup {f : Nat} {e : Entry} {bs : List (Nat × Bucket)}
    (h : (akeys bs).Nodup) : (akeys (addNodeToFrequencyList f e bs)).Nodup := by
  rw [addNodeToFrequencyList]
  cases alookup f bs <;> exact akeys_aset_nodup h

theorem alookup_addNode_self {f : Nat} {e : Entry} {bs : List (Nat × Bucket)} :
    alookup f (addNodeToFrequencyList f e bs) =
      some (e :: (alookup f bs).getD []) := by
  rw [addNodeToFrequencyList]
  cases alookup f bs <;> simp [alookup_aset_self]

theorem alookup_addNode_ne {f g : Nat} {e : Entry} {bs : List (Nat × Bucket)}
    (h : g ≠ f) :
    alookup g (addNodeToFrequencyList f e bs) = alookup g bs := by
  rw [addNodeToFrequencyList]
  cases alookup f bs <;> exact alookup_aset_ne h

theorem mem_bsEntries {p : Nat × Bucket} {bs : List (Nat × Bucket)} {e : Entry}
    (hp : p ∈ bs) (he : e ∈ p.2) : e ∈ bsEntries bs := by
  simp only [bsEntries]
  exact List.mem_flatten.2 ⟨p.2, List.mem_map.2 ⟨p, hp, rfl⟩, he⟩

/-! ### Lemmas: ghost touch data -/

theorem touchOf_aset_self (tm : List (Int × Nat)) (k : Int) (t : Nat) :
    touchOf (aset k t tm) k = t := by
  simp [touchOf, alookup_aset_self]

theorem touchOf_aset_ne (tm : List (Int × Nat)) (t : Nat) {k k' : Int}
    (h : k' ≠ k) : touchOf (aset k t tm) k' = touchOf tm k' := by
  simp [touchOf, alookup_aset_ne h]

theorem map_touchOf_aset_of_ne {l : Bucket} {k : Int} (t : Nat)
    (tm : List (Int × Nat)) (h : ∀ e ∈ l, e.1 ≠ k) :
    (l.map fun e => touchOf (aset k t tm) e.1) =
      (l.map fun e => touchOf tm e.1) :=
  List.map_congr_left fun e he => touchOf_aset_ne tm t (h e he)

theorem pairwise_gt_last {l : List Nat} {a : Nat}
    (h : (l ++ [a]).Pairwise (· > ·)) : ∀ x ∈ l, x > a :=
  fun x hx => (List.pairwise_append.1 h).2.2 x hx a (by simp)

/-! ### Helper lemmas for the invariant proofs -/

theorem alookup_append_self {κ α : Type} [DecidableEq κ] {k : κ} {v : α}
    {p q : List (κ × α)} (hp : k ∉ akeys p) :
    alookup k (p ++ (k, v) :: q) = some v := by
  induction p with
  | nil => simp [alookup]
  | cons hd p ih =>
    obtain ⟨k', v'⟩ := hd
    simp only [akeys_cons, List.mem_cons] at hp
    push_neg at hp
    have hne : ¬k' = k := fun h => hp.1 h.symm
    simp [alookup, hne, ih hp.2]

theorem nodup_remove_mid {α : Type} {a : α} {xs ys tail : List α}
    (h : (xs ++ (ys ++ a :: tail)).Nodup) :
    a ∉ xs ∧ a ∉ ys ∧ a ∉ tail ∧ (xs ++ (ys ++ tail)).Nodup := by
  have h1 : ((xs ++ ys) ++ (a :: tail)).Nodup := by
    rw [List.append_assoc]; exact h
  have h3 : (a :: ((xs ++ ys) ++ tail)).Nodup :=
    List.Perm.nodup List.perm_middle h1
  obtain ⟨ha, hrest⟩ := List.nodup_cons.1 h3
  exact ⟨fun hx => ha (by simp [hx]), fun hy => ha (by simp [hy]),
    fun ht => ha (by simp [ht]), by rw [← List.append_assoc]; exact hrest⟩

theorem perm_cons_mid {α : Type} (a : α) (xs ys zs ws : List α) :
    List.Perm (a :: (xs ++ (ys ++ zs ++ ws))) (xs ++ (ys ++ a :: zs ++ ws)) := by
  have he : xs ++ (ys ++ a :: zs ++ ws) = (xs ++ ys) ++ (a :: (zs ++ ws)) := by
    simp [List.append_assoc]
  have he2 : a :: (xs ++ (ys ++ zs ++ ws)) = a :: ((xs ++ ys) ++ (zs ++ ws)) := by
    simp [List.append_assoc]
  rw [he, he2]
  exact (@List.perm_middle _ a (xs ++ ys) (zs ++ ws)).symm

theorem key_mem_of_bucket {P : List (Nat × Bucket)} {p : Nat × Bucket} {e : Entry}
    (hp : p ∈ P) (he : e ∈ p.2) : e.1 ∈ entKeys (bsEntries P) :=
  List.mem_map.2 ⟨e, mem_bsEntries hp he, rfl⟩

/-! ### Preservation: the update path (`updateFrequency`) -/

theorem updateFrequency_ghost {st : LFUCache} {tm : List (Int × Nat)} {clock : Nat}
    {k v0 : Int} {f : Nat} (v : Int)
    (hinv : LFUInv st)
    (hbound : ∀ p ∈ st.freqLists, ∀ e ∈ p.2, touchOf tm e.1 < clock)
    (hsorted : ∀ p ∈ st.freqLists, (p.2.map fun e => touchOf tm e.1).Pairwise (· > ·))
    (hfind : lfuFind st k = some (f, v0)) :
    LFUInv (updateFrequency st k f v) ∧
    (∀ p ∈ (updateFrequency st k f v).freqLists, ∀ e ∈ p.2,
      touchOf (aset k clock tm) e.1 < clock + 1) ∧
    (∀ p ∈ (updateFrequency st k f v).freqLists,
      (p.2.map fun e => touchOf (aset k clock tm) e.1).Pairwise (· > ·)) ∧
    lfuFind (updateFrequency st k f v) k = some (f + 1, v) ∧
    lfuSize (updateFrequency st k f v) = lfuSize st ∧
    ((lfuKeys (updateFrequency st k f v) : Multiset Int) =
      (lfuKeys st : Multiset Int)) ∧
    (updateFrequency st k f v).capacity = st.capacity := by
  obtain ⟨L, hlook, hfL⟩ := lfuFindAux_alookup hinv.freqNodup hfind
  obtain ⟨P, Q, hbs, hPf⟩ := alookup_decomp hlook
  obtain ⟨Lp, Lq, hL, hLp, herase⟩ := entFind_decomp hfL
  have hUF : updateFrequency st k f v =
      { capacity := st.capacity,
        minFrequency :=
          if Lp ++ Lq = ([] : List Entry) ∧ st.minFrequency = f
          then st.minFrequency + 1 else st.minFrequency,
        freqLists := addNodeToFrequencyList (f + 1) (k, v)
          (if Lp ++ Lq = ([] : List Entry) then aerase f st.freqLists
           else aset f (Lp ++ Lq) st.freqLists) } := by
    simp only [updateFrequency, hlook, Option.getD_some, herase]
  set l1 : List Entry := Lp ++ Lq with hl1
  set bs1 : List (Nat × Bucket) :=
    if l1 = [] then aerase f st.freqLists else aset f l1 st.freqLists with hbs1
  set mf1 : Nat :=
    if l1 = [] ∧ st.minFrequency = f then st.minFrequency + 1
    else st.minFrequency with hmf1
  -- context facts about the old state
  have hmemL : (f, L) ∈ st.freqLists := by
    rw [hbs]; exact List.mem_append_right _ (List.mem_cons_self ..)
  have hfQ : f ∉ akeys Q := by
    have h := hinv.freqNodup
    rw [hbs] at h
    simp only [akeys_append, akeys_cons] at h
    exact (List.nodup_cons.1 (List.Nodup.of_append_right h)).1
  have hmf_le_f : st.minFrequency ≤ f := hinv.minFreqLe _ hmemL
  have hf_pos : 1 ≤ f := hinv.freqsPos _ hmemL
  have hkeys0 : (entKeys (bsEntries P) ++
      (entKeys Lp ++ k :: (entKeys Lq ++ entKeys (bsEntries Q)))).Nodup := by
    have h := hinv.keysNodup
    simp only [lfuKeys, lfuEntries] at h
    rw [hbs] at h
    simpa [hL] using h
  obtain ⟨hkP, hkLp2, hkTail, hkeysRest⟩ := nodup_remove_mid hkeys0
  have hkLq : k ∉ entKeys Lq := fun h => hkTail (List.mem_append_left _ h)
  have hkQ : k ∉ entKeys (bsEntries Q) := fun h => hkTail (List.mem_append_right _ h)
  -- facts about bs1
  have hbs1E : bsEntries bs1 = bsEntries P ++ (l1 ++ bsEntries Q) := by
    by_cases hc : l1 = []
    · rw [hbs1, if_pos hc, hbs, aerase_decomp hPf, hc]
      simp
    · rw [hbs1, if_neg hc, hbs, aset_decomp _ hPf]
      simp
  have hbs1mem : ∀ p ∈ bs1, (p = (f, l1) ∧ l1 ≠ []) ∨ p ∈ P ∨ p ∈ Q := by
    intro p hp
    by_cases hc : l1 = []
    · rw [hbs1, if_pos hc, hbs, aerase_decomp hPf] at hp
      rcases List.mem_append.1 hp with h | h
      · exact Or.inr (Or.inl h)
      · exact Or.inr (Or.inr h)
    · rw [hbs1, if_neg hc, hbs, aset_decomp _ hPf] at hp
      rcases List.mem_append.1 hp with h | h
      · exact Or.inr (Or.inl h)
      · rcases List.mem_cons.1 h with h' | h'
        · exact Or.inl ⟨h', hc⟩
        · exact Or.inr (Or.inr h')
  have hbs1nodup : (akeys bs1).Nodup := by
    by_cases hc : l1 = []
    · rw [hbs1, if_pos hc, hbs, aerase_decomp hPf]
      have h := hinv.freqNodup
      rw [hbs] at h
      simp only [akeys_append, akeys_cons] at h ⊢
      exact List.Perm.nodup List.perm_middle h |>.of_cons
    · rw [hbs1, if_neg hc]
      exact akeys_aset_nodup hinv.freqNodup
  have hbs1look_ne : ∀ g : Nat, g ≠ f → alookup g bs1 = alookup g st.freqLists := by
    intro g hg
    by_cases hc : l1 = []
    · rw [hbs1, if_pos hc]; exact alookup_aerase_ne hg
    · rw [hbs1, if_neg hc]; exact alookup_aset_ne hg
  have hbs1look_f : l1 ≠ [] → alookup f bs1 = some l1 := by
    intro hc
    rw [hbs1, if_neg hc, hbs, aset_decomp _ hPf]
    exact alookup_append_self hPf
  have hmemP_st : ∀ p ∈ P, p ∈ st.freqLists := fun p hp => by
    rw [hbs]; exact List.mem_append_left _ hp
  have hmemQ_st : ∀ p ∈ Q, p ∈ st.freqLists := fun p hp => by
    rw [hbs]; exact List.mem_append_right _ (List.mem_cons_of_mem _ hp)
  -- no entry of bs1 has key k
  have hfreshP : ∀ p ∈ P, ∀ e ∈ p.2, e.1 ≠ k := fun p hp e he heq =>
    hkP (heq ▸ key_mem_of_bucket hp he)
  have hfreshQ : ∀ p ∈ Q, ∀ e ∈ p.2, e.1 ≠ k := fun p hp e he heq =>
    hkQ (heq ▸ key_mem_of_bucket hp he)
  have hfreshl1 : ∀ e ∈ l1, e.1 ≠ k := by
    intro e he heq
    rcases List.mem_append.1 he with h | h
    · exact hkLp2 (heq ▸ List.mem_map.2 ⟨e, h, rfl⟩)
    · exact hkLq (heq ▸ List.mem_map.2 ⟨e, h, rfl⟩)
  have hfresh1 : ∀ p ∈ bs1, ∀ e ∈ p.2, e.1 ≠ k := by
    intro p hp e he
    rcases hbs1mem p hp with ⟨rfl, -⟩ | hp' | hp'
    · exact hfreshl1 e he
    · exact hfreshP p hp' e he
    · exact hfreshQ p hp' e he
  -- old bound and order transferred to bs1
  have hboundOld : ∀ p ∈ bs1, ∀ e ∈ p.2, touchOf tm e.1 < clock := by
    intro p hp e he
    rcases hbs1mem p hp with ⟨rfl, -⟩ | hp' | hp'
    · have heL : e ∈ L := by
        rw [hL]
        rcases List.mem_append.1 he with h | h
        · exact List.mem_append_left _ h
        · exact List.mem_append_right _ (List.mem_cons_of_mem _ h)
      exact hbound _ hmemL e heL
    · exact hbound p (hmemP_st p hp') e he
    · exact hbound p (hmemQ_st p hp') e he
  have hsortedOld : ∀ p ∈ bs1, (p.2.map fun e => touchOf tm e.1).Pairwise (· > ·) := by
    intro p hp
    rcases hbs1mem p hp with ⟨rfl, -⟩ | hp' | hp'
    · have hsub : List.Sublist l1 L := by
        rw [hL, hl1]
        exact List.Sublist.append_left (List.sublist_cons_self _ _) Lp
      exact List.Pairwise.sublist (List.Sublist.map _ hsub) (hsorted _ hmemL)
    · exact hsorted p (hmemP_st p hp')
    · exact hsorted p (hmemQ_st p hp')
  -- the bucket receiving the promoted node
  set m0 : List Entry := (alookup (f + 1) bs1).getD [] with hm0
  have haddSelf : alookup (f + 1) (addNodeToFrequencyList (f + 1) (k, v) bs1) =
      some ((k, v) :: m0) := by
    rw [alookup_addNode_self]
  have hm0facts : (∀ e ∈ m0, ∃ q ∈ bs1, e ∈ q.2) ∧
      ((m0.map fun e => touchOf tm e.1).Pairwise (· > ·)) := by
    cases hup : alookup (f + 1) bs1 with
    | none =>
      constructor
      · intro e he; rw [hm0, hup] at he; simp at he
      · rw [hm0, hup]; simp
    | some m =>
      have hm0m : m0 = m := by rw [hm0, hup]; rfl
      rw [hm0m]
      exact ⟨fun e he => ⟨(f + 1, m), alookup_mem hup, he⟩,
        hsortedOld _ (alookup_mem hup)⟩
  have hnewmem : ∀ p ∈ addNodeToFrequencyList (f + 1) (k, v) bs1,
      p = (f + 1, (k, v) :: m0) ∨ p ∈ bs1 := by
    intro p hp
    rcases mem_addNode_cases hp with ⟨m, hm, rfl⟩ | ⟨hnone, rfl⟩ | hp'
    · left; rw [hm0, hm]; rfl
    · left; rw [hm0, hnone]; rfl
    · right; exact hp'
  -- keys of the new state are a permutation of the old keys
  have hKeysPerm : List.Perm
      (entKeys (bsEntries (addNodeToFrequencyList (f + 1) (k, v) bs1)))
      (lfuKeys st) := by
    have h1 : List.Perm
        (entKeys (bsEntries (addNodeToFrequencyList (f + 1) (k, v) bs1)))
        (k :: entKeys (bsEntries bs1)) := by
      simpa [entKeys] using
        List.Perm.map Prod.fst (bsEntries_addNode_perm (f + 1) (k, v) bs1)
    refine h1.trans ?_
    rw [hbs1E]
    simp only [lfuKeys, lfuEntries]
    rw [hbs]
    simp only [bsEntries_append, bsEntries_cons, entKeys_append, hL, hl1,
      entKeys_cons]
    exact perm_cons_mid k (entKeys (bsEntries P)) (entKeys Lp) (entKeys Lq)
      (entKeys (bsEntries Q))
  have hKeysNodupNew :
      (entKeys (bsEntries (addNodeToFrequencyList (f + 1) (k, v) bs1))).Nodup :=
    List.Perm.nodup hKeysPerm.symm hinv.keysNodup
  have hFind' : lfuFindAux k (addNodeToFrequencyList (f + 1) (k, v) bs1) =
      some (f + 1, v) :=
    lfuFindAux_of_mem hKeysNodupNew (alookup_mem haddSelf) (by rw [entFind]; simp)
  have hSize' : (bsEntries (addNodeToFrequencyList (f + 1) (k, v) bs1)).length =
      lfuSize st := by
    rw [List.Perm.length_eq (bsEntries_addNode_perm (f + 1) (k, v) bs1)]
    simp only [lfuSize, lfuEntries]
    rw [hbs1E, hbs]
    simp [hL, hl1]
    omega
  -- the ghost bound for the new state
  have hBound' : ∀ p ∈ addNodeToFrequencyList (f + 1) (k, v) bs1, ∀ e ∈ p.2,
      touchOf (aset k clock tm) e.1 < clock + 1 := by
    intro p hp e he
    rcases hnewmem p hp with rfl | hp'
    · rcases List.mem_cons.1 he with rfl | he'
      · rw [touchOf_aset_self]; omega
      · obtain ⟨q, hq, heq⟩ := hm0facts.1 e he'
        rw [touchOf_aset_ne _ _ (hfresh1 q hq e heq)]
        exact Nat.lt_succ_of_lt (hboundOld q hq e heq)
    · rw [touchOf_aset_ne _ _ (hfresh1 p hp' e he)]
      exact Nat.lt_succ_of_lt (hboundOld p hp' e he)
  -- the ghost order for the new state
  have hSorted' : ∀ p ∈ addNodeToFrequencyList (f + 1) (k, v) bs1,
      (p.2.map fun e => touchOf (aset k clock tm) e.1).Pairwise (· > ·) := by
    intro p hp
    rcases hnewmem p hp with rfl | hp'
    · show ((((k, v) :: m0).map fun e => touchOf (aset k clock tm) e.1)).Pairwise (· > ·)
      rw [List.map_cons]
      refine List.Pairwise.cons ?_ ?_
      · intro x hx
        obtain ⟨e, he, rfl⟩ := List.mem_map.1 hx
        obtain ⟨q, hq, heq⟩ := hm0facts.1 e he
        rw [touchOf_aset_self, touchOf_aset_ne _ _ (hfresh1 q hq e heq)]
        exact hboundOld q hq e heq
      · have hcongr := map_touchOf_aset_of_ne clock tm (fun e he => by
            obtain ⟨q, hq, heq⟩ := hm0facts.1 e he
            exact hfresh1 q hq e heq)
        rw [hcongr]
        exact hm0facts.2
    · rw [map_touchOf_aset_of_ne clock tm (fun e he => hfresh1 p hp' e he)]
      exact hsortedOld p hp'
  -- the structural invariant of the new state
  have hInv' : LFUInv
      { capacity := st.capacity, minFrequency := mf1,
        freqLists := addNodeToFrequencyList (f + 1) (k, v) bs1 } := by
    refine ⟨?_, ?_, ?_, ?_, ?_, ?_, ?_⟩
    · exact akeys_addNode_nodup hbs1nodup
    · intro p hp
      rcases hnewmem p hp with rfl | hp'
      · simp
      · rcases hbs1mem p hp' with ⟨rfl, hne⟩ | hp'' | hp''
        · exact hne
        · exact hinv.bucketsNE p (hmemP_st p hp'')
        · exact hinv.bucketsNE p (hmemQ_st p hp'')
    · intro p hp
      rcases hnewmem p hp with rfl | hp'
      · simp
      · rcases hbs1mem p hp' with ⟨rfl, hne⟩ | hp'' | hp''
        · exact hf_pos
        · exact hinv.freqsPos p (hmemP_st p hp'')
        · exact hinv.freqsPos p (hmemQ_st p hp'')
    · exact hKeysNodupNew
    · intro p hp
      rcases hnewmem p hp with rfl | hp'
      · show mf1 ≤ f + 1
        rw [hmf1]; split
        · next h => obtain ⟨-, h2⟩ := h; omega
        · omega
      · rcases hbs1mem p hp' with ⟨rfl, hne⟩ | hp'' | hp''
        · show mf1 ≤ f
          rw [hmf1, if_neg]
          · exact hmf_le_f
          · rintro ⟨h, -⟩; exact hne h
        · have hp1 : st.minFrequency ≤ p.1 := hinv.minFreqLe p (hmemP_st p hp'')
          show mf1 ≤ p.1
          rw [hmf1]; split
          · next h =>
            have hnef : p.1 ≠ f := fun he =>
              hPf (he ▸ List.mem_map.2 ⟨p, hp'', rfl⟩)
            obtain ⟨-, h2⟩ := h
            omega
          · exact hp1
        · have hp1 : st.minFrequency ≤ p.1 := hinv.minFreqLe p (hmemQ_st p hp'')
          show mf1 ≤ p.1
          rw [hmf1]; split
          · next h =>
            have hnef : p.1 ≠ f := fun he =>
              hfQ (he ▸ List.mem_map.2 ⟨p, hp'', rfl⟩)
            obtain ⟨-, h2⟩ := h
            omega
          · exact hp1
    · intro hne
      show (alookup mf1 (addNodeToFrequencyList (f + 1) (k, v) bs1)).isSome
      by_cases hcond : l1 = [] ∧ st.minFrequency = f
      · have hmf1eq : mf1 = f + 1 := by rw [hmf1, if_pos hcond, hcond.2]
        rw [hmf1eq, haddSelf]; rfl
      · have hmf1eq : mf1 = st.minFrequency := by rw [hmf1, if_neg hcond]
        by_cases hmf_f : st.minFrequency = f
        · have hl1ne : l1 ≠ [] := fun h => hcond ⟨h, hmf_f⟩
          rw [hmf1eq, hmf_f,
            alookup_addNode_ne (by omega : f ≠ f + 1), hbs1look_f hl1ne]
          rfl
        · have hne2 : st.minFrequency ≠ f + 1 := by omega
          rw [hmf1eq, alookup_addNode_ne hne2, hbs1look_ne _ hmf_f]
          exact hinv.minFreqMem (by rw [hbs]; simp)
    · intro hcap
      show ((bsEntries (addNodeToFrequencyList (f + 1) (k, v) bs1)).length : Int) ≤
        st.capacity
      rw [hSize']
      exact hinv.sizeLe hcap
  rw [hUF]
  exact ⟨hInv', hBound', hSorted', hFind', hSize',
    Multiset.coe_eq_coe.2 hKeysPerm, rfl⟩

/-! ### Preservation: the insert path of `put` -/

theorem insert_ghost {B : List (Nat × Bucket)} {tm : List (Int × Nat)} {clock : Nat}
    {k : Int} (v : Int) (cap : Int)
    (hnodup : (akeys B).Nodup)
    (hbne : ∀ p ∈ B, p.2 ≠ [])
    (hpos : ∀ p ∈ B, 1 ≤ p.1)
    (hkeys : (entKeys (bsEntries B)).Nodup)
    (hfresh : k ∉ entKeys (bsEntries B))
    (hbound : ∀ p ∈ B, ∀ e ∈ p.2, touchOf tm e.1 < clock)
    (hsorted : ∀ p ∈ B, (p.2.map fun e => touchOf tm e.1).Pairwise (· > ·))
    (hsz : 0 ≤ cap → ((bsEntries B).length : Int) + 1 ≤ cap) :
    LFUInv { capacity := cap, minFrequency := 1,
             freqLists := addNodeToFrequencyList 1 (k, v) B } ∧
    (∀ p ∈ addNodeToFrequencyList 1 (k, v) B, ∀ e ∈ p.2,
      touchOf (aset k clock tm) e.1 < clock + 1) ∧
    (∀ p ∈ addNodeToFrequencyList 1 (k, v) B,
      (p.2.map fun e => touchOf (aset k clock tm) e.1).Pairwise (· > ·)) ∧
    lfuFindAux k (addNodeToFrequencyList 1 (k, v) B) = some (1, v) ∧
    (bsEntries (addNodeToFrequencyList 1 (k, v) B)).length =
      (bsEntries B).length + 1 ∧
    List.Perm (entKeys (bsEntries (addNodeToFrequencyList 1 (k, v) B)))
      (k :: entKeys (bsEntries B)) := by
  have hfreshB : ∀ p ∈ B, ∀ e ∈ p.2, e.1 ≠ k := fun p hp e he heq =>
    hfresh (heq ▸ key_mem_of_bucket hp he)
  set m0 : List Entry := (alookup 1 B).getD [] with hm0
  have haddSelf : alookup 1 (addNodeToFrequencyList 1 (k, v) B) =
      some ((k, v) :: m0) := by
    rw [alookup_addNode_self]
  have hm0facts : (∀ e ∈ m0, ∃ q ∈ B, e ∈ q.2) ∧
      ((m0.map fun e => touchOf tm e.1).Pairwise (· > ·)) := by
    cases hup : alookup 1 B with
    | none =>
      constructor
      · intro e he; rw [hm0, hup] at he; simp at he
      · rw [hm0, hup]; simp
    | some m =>
      have hm0m : m0 = m := by rw [hm0, hup]; rfl
      rw [hm0m]
      exact ⟨fun e he => ⟨(1, m), alookup_mem hup, he⟩,
        hsorted _ (alookup_mem hup)⟩
  have hnewmem : ∀ p ∈ addNodeToFrequencyList 1 (k, v) B,
      p = (1, (k, v) :: m0) ∨ p ∈ B := by
    intro p hp
    rcases mem_addNode_cases hp with ⟨m, hm, rfl⟩ | ⟨hnone, rfl⟩ | hp'
    · left; rw [hm0, hm]; rfl
    · left; rw [hm0, hnone]; rfl
    · right; exact hp'
  have hKeysPerm : List.Perm (entKeys (bsEntries (addNodeToFrequencyList 1 (k, v) B)))
      (k :: entKeys (bsEntries B)) := by
    simpa [entKeys] using
      List.Perm.map Prod.fst (bsEntries_addNode_perm 1 (k, v) B)
  have hKeysNodupNew :
      (entKeys (bsEntries (addNodeToFrequencyList 1 (k, v) B))).Nodup :=
    List.Perm.nodup hKeysPerm.symm (List.nodup_cons.2 ⟨hfresh, hkeys⟩)
  have hSize' : (bsEntries (addNodeToFrequencyList 1 (k, v) B)).length =
      (bsEntries B).length + 1 := by
    rw [List.Perm.length_eq (bsEntries_addNode_perm 1 (k, v) B)]
    simp
  refine ⟨⟨akeys_addNode_nodup hnodup, ?_, ?_, hKeysNodupNew, ?_, ?_, ?_⟩,
    ?_, ?_, ?_, hSize', hKeysPerm⟩
  · intro p hp
    rcases hnewmem p hp with rfl | hp'
    · simp
    · exact hbne p hp'
  · intro p hp
    rcases hnewmem p hp with rfl | hp'
    · simp
    · exact hpos p hp'
  · intro p hp
    rcases hnewmem p hp with rfl | hp'
    · simp
    · exact hpos p hp'
  · intro hne
    rw [haddSelf]; rfl
  · intro hcap
    show ((bsEntries (addNodeToFrequencyList 1 (k, v) B)).length : Int) ≤ cap
    rw [hSize']
    have := hsz hcap
    omega
  · intro p hp e he
    rcases hnewmem p hp with rfl | hp'
    · rcases List.mem_cons.1 he with rfl | he'
      · rw [touchOf_aset_self]; omega
      · obtain ⟨q, hq, heq⟩ := hm0facts.1 e he'
        rw [touchOf_aset_ne _ _ (hfreshB q hq e heq)]
        exact Nat.lt_succ_of_lt (hbound q hq e heq)
    · rw [touchOf_aset_ne _ _ (hfreshB p hp' e he)]
      exact Nat.lt_succ_of_lt (hbound p hp' e he)
  · intro p hp
    rcases hnewmem p hp with rfl | hp'
    · show ((((k, v) :: m0).map fun e => touchOf (aset k clock tm) e.1)).Pairwise (· > ·)
      rw [List.map_cons]
      refine List.Pairwise.cons ?_ ?_
      · intro x hx
        obtain ⟨e, he, rfl⟩ := List.mem_map.1 hx
        obtain ⟨q, hq, heq⟩ := hm0facts.1 e he
        rw [touchOf_aset_self, touchOf_aset_ne _ _ (hfreshB q hq e heq)]
        exact hbound q hq e heq
      · have hcongr := map_touchOf_aset_of_ne clock tm (fun e he => by
            obtain ⟨q, hq, heq⟩ := hm0facts.1 e he
            exact hfreshB q hq e heq)
        rw [hcongr]
        exact hm0facts.2
    · rw [map_touchOf_aset_of_ne clock tm (fun e he => hfreshB p hp' e he)]
      exact hsorted p hp'
  · exact lfuFindAux_of_mem hKeysNodupNew (alookup_mem haddSelf)
      (by rw [entFind]; simp)

/-! ### Preservation: the eviction path of `put` -/

theorem lfuEvict_eq {st : LFUCache} {L : Bucket}
    (hlook : alookup st.minFrequency st.freqLists = some L) (hLne : L ≠ []) :
    lfuEvict st = some { st with freqLists :=
      (if L.dropLast = [] then aerase st.minFrequency st.freqLists
       else aset st.minFrequency L.dropLast st.freqLists) } := by
  obtain ⟨a, l, rfl⟩ : ∃ a l, L = a :: l := by
    cases L with
    | nil => exact absurd rfl hLne
    | cons a l => exact ⟨a, l, rfl⟩
  simp only [lfuEvict, hlook]

theorem evict_ghost {st : LFUCache} {tm : List (Int × Nat)} {clock : Nat}
    (hinv : LFUInv st)
    (hbound : ∀ p ∈ st.freqLists, ∀ e ∈ p.2, touchOf tm e.1 < clock)
    (hsorted : ∀ p ∈ st.freqLists, (p.2.map fun e => touchOf tm e.1).Pairwise (· > ·))
    (hne : st.freqLists ≠ []) :
    ∃ E B',
      lfuEvictChoice st = some E ∧
      lfuEvict st = some { st with freqLists := B' } ∧
      lfuFind st E.1 = some (st.minFrequency, E.2) ∧
      (∀ x fx vx, lfuFind st x = some (fx, vx) → st.minFrequency ≤ fx) ∧
      (∀ x vx, lfuFind st x = some (st.minFrequency, vx) → x ≠ E.1 →
        touchOf tm E.1 < touchOf tm x) ∧
      (akeys B').Nodup ∧ (∀ p ∈ B', p.2 ≠ []) ∧ (∀ p ∈ B', 1 ≤ p.1) ∧
      (entKeys (bsEntries B')).Nodup ∧
      (∀ p ∈ B', ∀ e ∈ p.2, touchOf tm e.1 < clock) ∧
      (∀ p ∈ B', (p.2.map fun e => touchOf tm e.1).Pairwise (· > ·)) ∧
      (bsEntries B').length + 1 = lfuSize st ∧
      List.Perm (lfuKeys st) (E.1 :: entKeys (bsEntries B')) := by
  obtain ⟨L, hlookmf⟩ := Option.isSome_iff_exists.1 (hinv.minFreqMem hne)
  have hmemL : (st.minFrequency, L) ∈ st.freqLists := alookup_mem hlookmf
  have hLne : L ≠ [] := hinv.bucketsNE _ hmemL
  obtain ⟨P, Q, hbs, hPf⟩ := alookup_decomp hlookmf
  set E : Entry := L.getLast hLne with hE
  have hlastq : L.getLast? = some E := List.getLast?_eq_getLast L hLne
  set l1 : List Entry := L.dropLast with hl1
  have hsplit : l1 ++ [E] = L :=
    List.dropLast_append_getLast? E (Option.mem_def.2 hlastq)
  set B' : List (Nat × Bucket) :=
    if l1 = [] then aerase st.minFrequency st.freqLists
    else aset st.minFrequency l1 st.freqLists with hB'
  have hfQ : st.minFrequency ∉ akeys Q := by
    have h := hinv.freqNodup
    rw [hbs] at h
    simp only [akeys_append, akeys_cons] at h
    exact (List.nodup_cons.1 (List.Nodup.of_append_right h)).1
  have hmemP_st : ∀ p ∈ P, p ∈ st.freqLists := fun p hp => by
    rw [hbs]; exact List.mem_append_left _ hp
  have hmemQ_st : ∀ p ∈ Q, p ∈ st.freqLists := fun p hp => by
    rw [hbs]; exact List.mem_append_right _ (List.mem_cons_of_mem _ hp)
  have hl1sub : List.Sublist l1 L := by rw [hl1]; exact List.dropLast_sublist L
  have hB'mem : ∀ p ∈ B', (p = (st.minFrequency, l1) ∧ l1 ≠ []) ∨ p ∈ P ∨ p ∈ Q := by
    intro p hp
    by_cases hc : l1 = []
    · rw [hB', if_pos hc, hbs, aerase_decomp hPf] at hp
      rcases List.mem_append.1 hp with h | h
      · exact Or.inr (Or.inl h)
      · exact Or.inr (Or.inr h)
    · rw [hB', if_neg hc, hbs, aset_decomp _ hPf] at hp
      rcases List.mem_append.1 hp with h | h
      · exact Or.inr (Or.inl h)
      · rcases List.mem_cons.1 h with h' | h'
        · exact Or.inl ⟨h', hc⟩
        · exact Or.inr (Or.inr h')
  have hB'nodup : (akeys B').Nodup := by
    by_cases hc : l1 = []
    · rw [hB', if_pos hc, hbs, aerase_decomp hPf]
      have h := hinv.freqNodup
      rw [hbs] at h
      simp only [akeys_append, akeys_cons] at h ⊢
      exact List.Perm.nodup List.perm_middle h |>.of_cons
    · rw [hB', if_neg hc]
      exact akeys_aset_nodup hinv.freqNodup
  have hB'E : bsEntries B' = bsEntries P ++ (l1 ++ bsEntries Q) := by
    by_cases hc : l1 = []
    · rw [hB', if_pos hc, hbs, aerase_decomp hPf, hc]
      simp
    · rw [hB', if_neg hc, hbs, aset_decomp _ hPf]
      simp
  have hkeysShape : (entKeys (bsEntries P) ++
      ((entKeys l1 ++ [E.1]) ++ entKeys (bsEntries Q))).Nodup := by
    have h := hinv.keysNodup
    simp only [lfuKeys, lfuEntries] at h
    rw [hbs] at h
    simp only [bsEntries_append, bsEntries_cons, entKeys_append] at h
    have hLkeys : entKeys L = entKeys l1 ++ [E.1] := by
      rw [← hsplit]; simp
    rwa [hLkeys] at h
  have hLnodup : (entKeys L).Nodup := by
    have h := List.Nodup.of_append_left (List.Nodup.of_append_right hkeysShape)
    have hLkeys : entKeys L = entKeys l1 ++ [E.1] := by
      rw [← hsplit]; simp
    rw [hLkeys]; exact h
  have hKeysPerm : List.Perm (lfuKeys st) (E.1 :: entKeys (bsEntries B')) := by
    simp only [lfuKeys, lfuEntries]
    rw [hbs, hB'E]
    simp only [bsEntries_append, bsEntries_cons, entKeys_append]
    have hLkeys : entKeys L = entKeys l1 ++ [E.1] := by
      rw [← hsplit]; simp
    rw [hLkeys]
    exact (perm_cons_mid E.1 (entKeys (bsEntries P)) (entKeys l1) []
      (entKeys (bsEntries Q))).symm.trans (by simp)
  have hB'keysNodup : (entKeys (bsEntries B')).Nodup := by
    have h := List.Perm.nodup hKeysPerm hinv.keysNodup
    exact (List.nodup_cons.1 h).2
  have hEmemL : E ∈ L := by rw [hE]; exact List.getLast_mem hLne
  have hEfind : lfuFind st E.1 = some (st.minFrequency, E.2) := by
    refine lfuFindAux_of_mem hinv.keysNodup hmemL (entFind_of_mem hLnodup ?_)
    simpa using hEmemL
  have hminAll : ∀ x fx vx, lfuFind st x = some (fx, vx) →
      st.minFrequency ≤ fx := by
    intro x fx vx hx
    obtain ⟨L', hL', -⟩ := lfuFindAux_mem hx
    exact hinv.minFreqLe _ hL'
  have htie : ∀ x vx, lfuFind st x = some (st.minFrequency, vx) → x ≠ E.1 →
      touchOf tm E.1 < touchOf tm x := by
    intro x vx hx hxe
    obtain ⟨L'', hL''look, hL''find⟩ := lfuFindAux_alookup hinv.freqNodup hx
    rw [hlookmf] at hL''look
    obtain rfl := Option.some.inj hL''look
    have hxmem : (x, vx) ∈ L := entFind_mem hL''find
    have hxl1 : (x, vx) ∈ l1 := by
      have hm : (x, vx) ∈ l1 ++ [E] := hsplit.symm ▸ hxmem
      rcases List.mem_append.1 hm with h | h
      · exact h
      · exfalso
        apply hxe
        have hEeq : (x, vx) = E := by simpa using h
        rw [← hEeq]
    have hsortL := hsorted _ hmemL
    have h2 : ((l1 ++ [E]).map fun e => touchOf tm e.1).Pairwise (· > ·) := by
      rw [hsplit]; exact hsortL
    rw [List.map_append] at h2
    exact pairwise_gt_last (by simpa using h2) _ (List.mem_map.2 ⟨(x, vx), hxl1, rfl⟩)
  have hchoice : lfuEvictChoice st = some E := by
    rw [lfuEvictChoice, hlookmf]
    exact hlastq
  have hevict : lfuEvict st = some { st with freqLists := B' } := by
    rw [lfuEvict_eq hlookmf hLne]
  refine ⟨E, B', hchoice, hevict, hEfind, hminAll, htie, hB'nodup, ?_, ?_,
    hB'keysNodup, ?_, ?_, ?_, hKeysPerm⟩
  · intro p hp
    rcases hB'mem p hp with ⟨rfl, hne'⟩ | hp' | hp'
    · exact hne'
    · exact hinv.bucketsNE p (hmemP_st p hp')
    · exact hinv.bucketsNE p (hmemQ_st p hp')
  · intro p hp
    rcases hB'mem p hp with ⟨rfl, hne'⟩ | hp' | hp'
    · exact hinv.freqsPos (st.minFrequency, L) hmemL
    · exact hinv.freqsPos p (hmemP_st p hp')
    · exact hinv.freqsPos p (hmemQ_st p hp')
  · intro p hp e he
    rcases hB'mem p hp with ⟨rfl, hne'⟩ | hp' | hp'
    · exact hbound _ hmemL e (List.Sublist.mem he hl1sub)
    · exact hbound p (hmemP_st p hp') e he
    · exact hbound p (hmemQ_st p hp') e he
  · intro p hp
    rcases hB'mem p hp with ⟨rfl, hne'⟩ | hp' | hp'
    · exact List.Pairwise.sublist (List.Sublist.map _ hl1sub) (hsorted _ hmemL)
    · exact hsorted p (hmemP_st p hp')
    · exact hsorted p (hmemQ_st p hp')
  · have hlen : L.length = l1.length + 1 := by
      rw [← hsplit]; simp
    simp only [lfuSize, lfuEntries]
    rw [hB'E, hbs]
    simp [hlen]
    omega

/-! ### The invariant along instrumented runs -/

theorem lfuIStep_inv {a : LFUInst} (op : LFUOp) (h : LFUInstInv a) :
    ∃ a', lfuIStep a op = some a' ∧ LFUInstInv a' ∧
      a'.st.capacity = a.st.capacity := by
  cases op with
  | get k =>
    cases hf : lfuFind a.st k with
    | none =>
      refine ⟨⟨a.st, a.clock + 1, a.touch⟩, ?_, ⟨h.stInv, ?_, h.touchSorted⟩, rfl⟩
      · simp [lfuIStep, lfuGet, hf]
      · intro p hp e he
        exact Nat.lt_succ_of_lt (h.touchBound p hp e he)
    | some fv =>
      obtain ⟨f, v0⟩ := fv
      obtain ⟨hinv', hbound', hsorted', -, -, -, hcap'⟩ :=
        updateFrequency_ghost v0 h.stInv h.touchBound h.touchSorted hf
      refine ⟨⟨updateFrequency a.st k f v0, a.clock + 1, aset k a.clock a.touch⟩,
        ?_, ⟨hinv', hbound', hsorted'⟩, hcap'⟩
      simp [lfuIStep, lfuGet, hf]
  | put k v =>
    by_cases hcap : a.st.capacity = 0
    · refine ⟨⟨a.st, a.clock + 1, a.touch⟩, ?_, ⟨h.stInv, ?_, h.touchSorted⟩, rfl⟩
      · simp [lfuIStep, lfuPut, hcap]
      · intro p hp e he
        exact Nat.lt_succ_of_lt (h.touchBound p hp e he)
    · cases hf : lfuFind a.st k with
      | some fv =>
        obtain ⟨f, v0⟩ := fv
        obtain ⟨hinv', hbound', hsorted', -, -, -, hcap'⟩ :=
          updateFrequency_ghost v h.stInv h.touchBound h.touchSorted hf
        refine ⟨⟨updateFrequency a.st k f v, a.clock + 1, aset k a.clock a.touch⟩,
          ?_, ⟨hinv', hbound', hsorted'⟩, hcap'⟩
        simp [lfuIStep, lfuPut, hcap, hf]
      | none =>
        have hfresh : k ∉ entKeys (bsEntries a.st.freqLists) :=
          lfuFindAux_eq_none.1 hf
        by_cases htr : (lfuSize a.st : Int) = a.st.capacity
        · -- the cache is full: evict, then insert
          have hnonempty : a.st.freqLists ≠ [] := by
            intro hnil
            have h0 : lfuSize a.st = 0 := by simp [lfuSize, lfuEntries, hnil]
            rw [h0] at htr
            exact hcap htr.symm
          obtain ⟨E, B', hchoice, hevict, hEfind, hminAll, htie, hB'nodup,
            hB'ne, hB'pos, hB'keys, hB'bound, hB'sorted, hB'size, hB'perm⟩ :=
            evict_ghost h.stInv h.touchBound h.touchSorted hnonempty
          have hfreshB' : k ∉ entKeys (bsEntries B') := fun hk =>
            hfresh (hB'perm.mem_iff.2 (List.mem_cons_of_mem _ hk))
          have hsz : 0 ≤ a.st.capacity →
              ((bsEntries B').length : Int) + 1 ≤ a.st.capacity := by
            intro hc
            have h1 : ((bsEntries B').length : Int) + 1 = (lfuSize a.st : Int) := by
              exact_mod_cast hB'size
            omega
          obtain ⟨hinv', hbound', hsorted', hfind', hsize', hperm'⟩ :=
            insert_ghost v a.st.capacity hB'nodup hB'ne hB'pos hB'keys
              hfreshB' hB'bound hB'sorted hsz
          have hput : lfuPut a.st k v = some
              { capacity := a.st.capacity, minFrequency := 1,
                freqLists := addNodeToFrequencyList 1 (k, v) B' } := by
            simp only [lfuPut, if_neg hcap, hf, if_pos htr, hevict]
          refine ⟨⟨{ capacity := a.st.capacity, minFrequency := 1,
                     freqLists := addNodeToFrequencyList 1 (k, v) B' },
              a.clock + 1, aset k a.clock a.touch⟩,
            ?_, ⟨hinv', hbound', hsorted'⟩, rfl⟩
          simp [lfuIStep, hput, hcap]
        · -- there is room: just insert
          have hsz : 0 ≤ a.st.capacity →
              ((bsEntries a.st.freqLists).length : Int) + 1 ≤ a.st.capacity := by
            intro hc
            have h1 := h.stInv.sizeLe hc
            simp only [lfuSize, lfuEntries] at h1 htr
            omega
          obtain ⟨hinv', hbound', hsorted', hfind', hsize', hperm'⟩ :=
            insert_ghost v a.st.capacity h.stInv.freqNodup h.stInv.bucketsNE
              h.stInv.freqsPos h.stInv.keysNodup hfresh
              h.touchBound h.touchSorted hsz
          have hput : lfuPut a.st k v = some
              { capacity := a.st.capacity, minFrequency := 1,
                freqLists := addNodeToFrequencyList 1 (k, v) a.st.freqLists } := by
            simp only [lfuPut, if_neg hcap, hf, if_neg htr]
          refine ⟨⟨{ capacity := a.st.capacity, minFrequency := 1,
                     freqLists := addNodeToFrequencyList 1 (k, v) a.st.freqLists },
              a.clock + 1, aset k a.clock a.touch⟩,
            ?_, ⟨hinv', hbound', hsorted'⟩, rfl⟩
          simp [lfuIStep, hput, hcap]

theorem lfuINew_inv (cap : Int) : LFUInstInv (lfuINew cap) := by
  refine ⟨⟨?_, ?_, ?_, ?_, ?_, ?_, ?_⟩, ?_, ?_⟩ <;>
    simp [lfuINew, lfuNew, lfuKeys, lfuEntries, lfuSize, akeys, bsEntries, entKeys]

theorem lfuIRunFrom_inv {a : LFUInst} (ops : List LFUOp) (h : LFUInstInv a) :
    ∃ a', lfuIRunFrom a ops = some a' ∧ LFUInstInv a' ∧
      a'.st.capacity = a.st.capacity := by
  induction ops generalizing a with
  | nil => exact ⟨a, rfl, h, rfl⟩
  | cons op ops ih =>
    obtain ⟨a1, hstep, hinv1, hcap1⟩ := lfuIStep_inv op h
    obtain ⟨a', hrun, hinv', hcap'⟩ := ih hinv1
    refine ⟨a', ?_, hinv', by rw [hcap', hcap1]⟩
    rw [lfuIRunFrom, hstep]
    exact hrun

theorem lfuIRun_inv (cap : Int) (ops : List LFUOp) :
    ∃ a, lfuIRun cap ops = some a ∧ LFUInstInv a ∧ a.st.capacity = cap :=
  lfuIRunFrom_inv ops (lfuINew_inv cap)

theorem lfuIStep_st (a : LFUInst) (op : LFUOp) :
    (lfuIStep a op).map LFUInst.st = lfuStep a.st op := by
  cases op with
  | get k => simp [lfuIStep, lfuStep]
  | put k v => cases h : lfuPut a.st k v <;> simp [lfuIStep, lfuStep, h]

theorem lfuIRunFrom_st (a : LFUInst) (ops : List LFUOp) :
    (lfuIRunFrom a ops).map LFUInst.st = lfuRunFrom a.st ops := by
  induction ops generalizing a with
  | nil => rfl
  | cons op ops ih =>
    have hst := lfuIStep_st a op
    cases hi : lfuIStep a op with
    | none =>
      rw [hi] at hst
      simp at hst
      simp [lfuIRunFrom, hi, lfuRunFrom, ← hst]
    | some a1 =>
      rw [hi] at hst
      simp at hst
      simp [lfuIRunFrom, hi, lfuRunFrom, ← hst, ih]

theorem lfuRun_inv (cap : Int) (ops : List LFUOp) :
    ∃ s, lfuRun cap ops = some s ∧ LFUInv s ∧ s.capacity = cap := by
  obtain ⟨a, hrun, hinv, hcap⟩ := lfuIRun_inv cap ops
  have hst := lfuIRunFrom_st (lfuINew cap) ops
  rw [lfuIRun] at hrun
  rw [hrun] at hst
  refine ⟨a.st, ?_, hinv.stInv, hcap⟩
  have h2 : lfuRunFrom (lfuINew cap).st ops = some a.st := by
    rw [← hst]; rfl
  rw [lfuRun]
  exact h2

/-! ### Size bounds for the custom LRU cache -/

theorem lruStep_cap (s : LRUCache) (op : LRUOp) :
    (lruStep s op).capacity = s.capacity := by
  cases op with
  | get k =>
    rw [lruStep]
    cases hf : entFind k s.entries <;> simp [lruGet, hf]
  | put k v =>
    rw [lruStep]
    simp only [lruPut]
    split <;> rfl

theorem lruGet_size (s : LRUCache) (k : Int) :
    lruSize (lruGet s k).2 = lruSize s := by
  cases hf : entFind k s.entries with
  | none => simp [lruGet, hf]
  | some v =>
    have := eraseEntry_length hf
    simp only [lruGet, hf, lruSize]
    simp
    omega

theorem lruPut_size {s : LRUCache} (k v : Int)
    (h : 0 ≤ s.capacity → (lruSize s : Int) ≤ s.capacity) :
    0 ≤ s.capacity → (lruSize (lruPut s k v) : Int) ≤ s.capacity := by
  intro hc
  have hs := h hc
  simp only [lruSize] at hs ⊢
  cases hf : entFind k s.entries with
  | some w =>
    have hlen := eraseEntry_length hf
    simp only [lruPut, hf]
    split
    · next hgt => simp [List.length_dropLast]; omega
    · next hle => push_neg at hle; simp at hle ⊢; omega
  | none =>
    simp only [lruPut, hf]
    split
    · next hgt => simp [List.length_dropLast]; omega
    · next hle => push_neg at hle; simp at hle ⊢; omega

theorem lruRunFrom_inv {s : LRUCache} (ops : List LRUOp)
    (h : 0 ≤ s.capacity → (lruSize s : Int) ≤ s.capacity) :
    (lruRunFrom s ops).capacity = s.capacity ∧
    (0 ≤ s.capacity → (lruSize (lruRunFrom s ops) : Int) ≤ s.capacity) := by
  induction ops generalizing s with
  | nil => exact ⟨rfl, h⟩
  | cons op ops ih =>
    have hcap := lruStep_cap s op
    have hsz : 0 ≤ (lruStep s op).capacity →
        (lruSize (lruStep s op) : Int) ≤ (lruStep s op).capacity := by
      rw [hcap]
      cases op with
      | get k =>
        intro hc
        rw [lruStep, lruGet_size]
        exact h hc
      | put k v =>
        rw [lruStep]
        exact lruPut_size k v h
    obtain ⟨hc1, hs1⟩ := ih hsz
    rw [lruRunFrom]
    exact ⟨by rw [hc1, hcap], by rw [← hcap]; exact hs1⟩

/-! ### Size bounds for the design-document LRU cache -/

theorem mdGet_state (s : MdCache) (k : Int) :
    (mdGet s k).2.capacity = s.capacity ∧ mdSize (mdGet s k).2 = mdSize s := by
  cases hf : entFind k s.entries with
  | none => simp [mdGet, hf]
  | some v =>
    have := eraseEntry_length hf
    constructor
    · simp [mdGet, hf]
    · simp only [mdGet, hf, mdSize]
      simp
      omega

theorem mdPut_state {s s' : MdCache} {k v : Int} (hp : mdPut s k v = some s')
    (h : 0 ≤ s.capacity → (mdSize s : Int) ≤ s.capacity) :
    s'.capacity = s.capacity ∧
    (0 ≤ s.capacity → (mdSize s' : Int) ≤ s.capacity) := by
  cases hf : entFind k s.entries with
  | some w =>
    rw [mdPut, hf] at hp
    obtain rfl := Option.some.inj hp
    have hlen := eraseEntry_length hf
    refine ⟨rfl, fun hc => ?_⟩
    have hs := h hc
    simp only [mdSize] at hs ⊢
    simp
    omega
  | none =>
    simp only [mdPut, hf] at hp
    split at hp
    · next hge =>
      cases hl : s.entries.getLast? with
      | none => rw [hl] at hp; exact absurd hp (by simp)
      | some e =>
        rw [hl] at hp
        obtain rfl := Option.some.inj hp
        have hne : s.entries ≠ [] := by
          intro h0; rw [h0] at hl; simp at hl
        have hpos : 1 ≤ s.entries.length := by
          cases he : s.entries with
          | nil => exact absurd he hne
          | cons a l => simp [he]
        refine ⟨rfl, fun hc => ?_⟩
        have hs := h hc
        simp only [mdSize] at hs ⊢
        simp [List.length_dropLast]
        omega
    · next hlt =>
      obtain rfl := Option.some.inj hp
      refine ⟨rfl, fun hc => ?_⟩
      simp only [mdSize] at hlt ⊢
      simp at hlt ⊢
      omega

theorem mdRemove_state (s : MdCache) (k : Int) :
    (mdRemove s k).capacity = s.capacity ∧
    mdSize (mdRemove s k) ≤ mdSize s := by
  cases hf : entFind k s.entries with
  | none => simp [mdRemove, hf]
  | some v =>
    constructor
    · simp [mdRemove, hf]
    · have := eraseEntry_length hf
      simp only [mdRemove, hf, mdSize]
      omega

theorem mdStep_state {s s' : MdCache} (op : MdOp) (hstep : mdStep s op = some s')
    (h : 0 ≤ s.capacity → (mdSize s : Int) ≤ s.capacity) :
    s'.capacity = s.capacity ∧
    (0 ≤ s.capacity → (mdSize s' : Int) ≤ s.capacity) := by
  cases op with
  | get k =>
    simp only [mdStep] at hstep
    obtain rfl := Option.some.inj hstep
    obtain ⟨h1, h2⟩ := mdGet_state s k
    exact ⟨h1, fun hc => by rw [h2]; exact h hc⟩
  | put k v =>
    simp only [mdStep] at hstep
    exact mdPut_state hstep h
  | remove k =>
    simp only [mdStep] at hstep
    obtain rfl := Option.some.inj hstep
    obtain ⟨h1, h2⟩ := mdRemove_state s k
    refine ⟨h1, fun hc => ?_⟩
    have := h hc
    omega

theorem mdRunFrom_inv {s s' : MdCache} (ops : List MdOp)
    (hrun : mdRunFrom s ops = some s')
    (h : 0 ≤ s.capacity → (mdSize s : Int) ≤ s.capacity) :
    s'.capacity = s.capacity ∧
    (0 ≤ s.capacity → (mdSize s' : Int) ≤ s.capacity) := by
  induction ops generalizing s with
  | nil =>
    rw [mdRunFrom] at hrun
    obtain rfl := Option.some.inj hrun
    exact ⟨rfl, h⟩
  | cons op ops ih =>
    rw [mdRunFrom] at hrun
    cases hstep : mdStep s op with
    | none => rw [hstep] at hrun; exact absurd hrun (by simp)
    | some s1 =>
      rw [hstep] at hrun
      obtain ⟨hc1, hs1⟩ := mdStep_state op hstep h
      obtain ⟨hc2, hs2⟩ := ih hrun (by rw [hc1]; exact hs1)
      refine ⟨by rw [hc2, hc1], fun hc => ?_⟩
      have := hs2 (by rw [hc1]; exact hc)
      rwa [hc1] at this

/-- C2: for every cache of this repository constructed with a non-negative
capacity and every finite sequence of operations, the operations that
complete keep `size() ≤ capacity()`: the LFU cache never raises and
satisfies the bound after every prefix, the custom LRU cache (total) always
satisfies it, and the design-document LRU cache satisfies it after every
completed run of get/put/remove operations. -/
theorem c2_capacity_invariant (cap : Int) (hcap : 0 ≤ cap)
    (opsF : List LFUOp) (opsL : List LRUOp) (opsM : List MdOp) :
    (∃ s, lfuRun cap opsF = some s ∧ (lfuSize s : Int) ≤ cap) ∧
    ((lruSize (lruRun cap opsL) : Int) ≤ cap) ∧
    (∀ s, mdRun cap opsM = some s → (mdSize s : Int) ≤ cap) := by
  refine ⟨?_, ?_, ?_⟩
  · obtain ⟨s, hrun, hinv, hc⟩ := lfuRun_inv cap opsF
    refine ⟨s, hrun, ?_⟩
    have := hinv.sizeLe (by rw [hc]; exact hcap)
    rwa [hc] at this
  · have h0 : 0 ≤ (lruNew cap).capacity →
        (lruSize (lruNew cap) : Int) ≤ (lruNew cap).capacity := by
      intro hc
      simpa [lruSize, lruNew] using hcap
    obtain ⟨hc1, hs1⟩ := lruRunFrom_inv opsL h0
    exact hs1 hcap
  · intro s hrun
    have h0 : 0 ≤ (mdNew cap).capacity →
        (mdSize (mdNew cap) : Int) ≤ (mdNew cap).capacity := by
      intro hc
      simpa [mdSize, mdNew] using hcap
    obtain ⟨hc1, hs1⟩ := mdRunFrom_inv opsM hrun h0
    exact hs1 hcap

/-- Witness for C2 at capacity 2 and concrete operation sequences. -/
theorem c2_capacity_invariant_witness :
    (∃ s, lfuRun 2 [.put 1 10, .put 2 20, .put 3 30, .get 1] = some s ∧
      (lfuSize s : Int) ≤ 2) ∧
    ((lruSize (lruRun 2 [.put 1 10, .put 2 20, .get 1, .put 3 30]) : Int) ≤ 2) ∧
    (∀ s, mdRun 2 [.put 1 10, .put 2 20, .remove 1, .put 3 30] = some s →
      (mdSize s : Int) ≤ 2) :=
  c2_capacity_invariant 2 (by decide)
    [.put 1 10, .put 2 20, .put 3 30, .get 1]
    [.put 1 10, .put 2 20, .get 1, .put 3 30]
    [.put 1 10, .put 2 20, .remove 1, .put 3 30]

/-- C4: after every completed operation sequence leaving the LFU cache
non-empty, the tracked `minFrequency` equals the smallest frequency whose
list in `frequencyToListMap` is non-empty: its own list exists and is
non-empty, and every frequency holding a non-empty list is at least
`minFrequency`. -/
theorem c4_minFrequency_invariant (cap : Int) (ops : List LFUOp) (s : LFUCache)
    (hrun : lfuRun cap ops = some s) (hne : s.freqLists ≠ []) :
    (∃ L, alookup s.minFrequency s.freqLists = some L ∧ L ≠ []) ∧
    (∀ f L, alookup f s.freqLists = some L → L ≠ [] → s.minFrequency ≤ f) := by
  obtain ⟨s', hrun', hinv, -⟩ := lfuRun_inv cap ops
  rw [hrun] at hrun'
  obtain rfl := Option.some.inj hrun'
  refine ⟨?_, ?_⟩
  · obtain ⟨L, hL⟩ := Option.isSome_iff_exists.1 (hinv.minFreqMem hne)
    exact ⟨L, hL, hinv.bucketsNE _ (alookup_mem hL)⟩
  · intro f L hL hLne
    exact hinv.minFreqLe _ (alookup_mem hL)

/-- Witness for C4 on a concrete run. -/
theorem c4_minFrequency_invariant_witness :
    (∃ L, alookup 2 [(2, [((1 : Int), (10 : Int))])] = some L ∧ L ≠ []) ∧
    (∀ f L, alookup f [(2, [((1 : Int), (10 : Int))])] = some L → L ≠ [] →
      2 ≤ f) :=
  c4_minFrequency_invariant 2 [.put 1 10, .get 1]
    ⟨2, 2, [(2, [(1, 10)])]⟩ (by decide) (by decide)

/-- C1: whenever an LFU `put` of an absent key evicts (size equals capacity,
capacity positive), the removed entry is the tail of the `minFrequency`
bucket: its frequency is minimal among all stored entries, and among entries
tied at that frequency it is the least recently touched one (strictly
earliest last touch).  In particular, at capacity 2,
`put(A,·); put(B,·); put(C,·)` on distinct keys evicts A, leaving exactly
the keys {C, B}. -/
theorem c1_lfu_eviction_policy :
    (∀ (cap : Int) (ops : List LFUOp) (a : LFUInst) (k v : Int),
      lfuIRun cap ops = some a →
      lfuFind a.st k = none →
      (lfuSize a.st : Int) = a.st.capacity →
      0 < a.st.capacity →
      ∃ E s', lfuEvictChoice a.st = some E ∧
        lfuFind a.st E.1 = some (a.st.minFrequency, E.2) ∧
        (∀ x fx vx, lfuFind a.st x = some (fx, vx) → a.st.minFrequency ≤ fx) ∧
        (∀ x vx, lfuFind a.st x = some (a.st.minFrequency, vx) → x ≠ E.1 →
          touchOf a.touch E.1 < touchOf a.touch x) ∧
        lfuPut a.st k v = some s' ∧
        ((lfuKeys s' : Multiset Int) =
          k ::ₘ ((lfuKeys a.st : Multiset Int).erase E.1))) ∧
    (∀ A B C vA vB vC : Int, A ≠ B → A ≠ C → B ≠ C →
      ∃ s2 s3, lfuRun 2 [.put A vA, .put B vB] = some s2 ∧
        lfuEvictChoice s2 = some (A, vA) ∧
        lfuRun 2 [.put A vA, .put B vB, .put C vC] = some s3 ∧
        lfuKeys s3 = [C, B]) := by
  constructor
  · intro cap ops a k v hrun hf htr hpos
    obtain ⟨a', hrun', hinv, -⟩ := lfuIRun_inv cap ops
    rw [hrun] at hrun'
    obtain rfl := Option.some.inj hrun'
    have hcap : a.st.capacity ≠ 0 := by omega
    have hnonempty : a.st.freqLists ≠ [] := by
      intro hnil
      have h0 : lfuSize a.st = 0 := by simp [lfuSize, lfuEntries, hnil]
      rw [h0] at htr
      omega
    obtain ⟨E, B', hchoice, hevict, hEfind, hminAll, htie, hB'nodup,
      hB'ne, hB'pos, hB'keys, hB'bound, hB'sorted, hB'size, hB'perm⟩ :=
      evict_ghost hinv.stInv hinv.touchBound hinv.touchSorted hnonempty
    have hput : lfuPut a.st k v = some
        { capacity := a.st.capacity, minFrequency := 1,
          freqLists := addNodeToFrequencyList 1 (k, v) B' } := by
      simp only [lfuPut, if_neg hcap, hf, if_pos htr, hevict]
    refine ⟨E, _, hchoice, hEfind, hminAll, htie, hput, ?_⟩
    have hnewperm : List.Perm
        (entKeys (bsEntries (addNodeToFrequencyList 1 (k, v) B')))
        (k :: entKeys (bsEntries B')) := by
      simpa [entKeys] using
        List.Perm.map Prod.fst (bsEntries_addNode_perm 1 (k, v) B')
    have holdms : (lfuKeys a.st : Multiset Int) =
        E.1 ::ₘ (entKeys (bsEntries B') : Multiset Int) := by
      rw [Multiset.cons_coe]
      exact Multiset.coe_eq_coe.2 hB'perm
    have hnewms : ((entKeys (bsEntries (addNodeToFrequencyList 1 (k, v) B')) :
        List Int) : Multiset Int) =
        k ::ₘ (entKeys (bsEntries B') : Multiset Int) := by
      rw [Multiset.cons_coe]
      exact Multiset.coe_eq_coe.2 hnewperm
    rw [holdms, Multiset.erase_cons_head]
    exact hnewms
  · intro A B C vA vB vC hAB hAC hBC
    have hBA : ¬B = A := fun h => hAB h.symm
    have hCA : ¬C = A := fun h => hAC h.symm
    have hCB : ¬C = B := fun h => hBC h.symm
    have h1 : lfuStep (lfuNew 2) (.put A vA) =
        some ⟨2, 1, [(1, [(A, vA)])]⟩ := rfl
    have h2 : lfuStep ⟨2, 1, [(1, [(A, vA)])]⟩ (.put B vB) =
        some ⟨2, 1, [(1, [(B, vB), (A, vA)])]⟩ := by
      simp +decide [lfuStep, lfuPut, lfuFind, lfuFindAux, entFind, lfuSize,
        lfuEntries, bsEntries, addNodeToFrequencyList, alookup, aset, hAB]
    have h3 : lfuStep ⟨2, 1, [(1, [(B, vB), (A, vA)])]⟩ (.put C vC) =
        some ⟨2, 1, [(1, [(C, vC), (B, vB)])]⟩ := by
      simp +decide [lfuStep, lfuPut, lfuFind, lfuFindAux, entFind, lfuSize,
        lfuEntries, bsEntries, addNodeToFrequencyList, alookup, aset,
        lfuEvict, eraseEntry, aerase, List.dropLast, hAC, hBC, hBA, hAB]
    refine ⟨⟨2, 1, [(1, [(B, vB), (A, vA)])]⟩,
      ⟨2, 1, [(1, [(C, vC), (B, vB)])]⟩, ?_, rfl, ?_, rfl⟩
    · show lfuRunFrom (lfuNew 2) _ = _
      simp only [lfuRunFrom, h1, h2]
    · show lfuRunFrom (lfuNew 2) _ = _
      simp only [lfuRunFrom, h1, h2, h3]

/-- Witness for C1: the reachable capacity-2 state after `put(1,10); put(2,20)`
(ghost clock 2), inserting the absent key 3. -/
theorem c1_lfu_eviction_policy_witness :
    ∃ E s',
      lfuEvictChoice (⟨2, 1, [(1, [(2, 20), (1, 10)])]⟩ : LFUCache) = some E ∧
      lfuFind (⟨2, 1, [(1, [(2, 20), (1, 10)])]⟩ : LFUCache) E.1 =
        some (1, E.2) ∧
      (∀ x fx vx,
        lfuFind (⟨2, 1, [(1, [(2, 20), (1, 10)])]⟩ : LFUCache) x =
          some (fx, vx) → 1 ≤ fx) ∧
      (∀ x vx,
        lfuFind (⟨2, 1, [(1, [(2, 20), (1, 10)])]⟩ : LFUCache) x =
          some (1, vx) → x ≠ E.1 →
        touchOf [(1, 0), (2, 1)] E.1 < touchOf [(1, 0), (2, 1)] x) ∧
      lfuPut (⟨2, 1, [(1, [(2, 20), (1, 10)])]⟩ : LFUCache) 3 30 = some s' ∧
      ((lfuKeys s' : Multiset Int) =
        3 ::ₘ ((lfuKeys (⟨2, 1, [(1, [(2, 20), (1, 10)])]⟩ : LFUCache) :
          Multiset Int).erase E.1)) :=
  c1_lfu_eviction_policy.1 2 [.put 1 10, .put 2 20]
    ⟨⟨2, 1, [(1, [(2, 20), (1, 10)])]⟩, 2, [(1, 0), (2, 1)]⟩ 3 30
    (by decide) (by decide) (by decide) (by decide)

/-- C3: for the custom LRU cache at capacity 2 and distinct keys,
`put(a,·); put(b,·); get(a); put(c,·)` evicts b (not a): the final state
holds exactly the keys c (most recent) and a. -/
theorem c3_lru_eviction_order (a b c va vb vc : Int)
    (hab : a ≠ b) (hac : a ≠ c) (hbc : b ≠ c) :
    lruRun 2 [.put a va, .put b vb, .get a, .put c vc] =
      { capacity := 2, entries := [(c, vc), (a, va)] } ∧
    lruKeys (lruRun 2 [.put a va, .put b vb, .get a, .put c vc]) = [c, a] := by
  have hba : ¬b = a := fun h => hab h.symm
  have h1 : lruStep (lruNew 2) (.put a va) = ⟨2, [(a, va)]⟩ := rfl
  have h2 : lruStep ⟨2, [(a, va)]⟩ (.put b vb) = ⟨2, [(b, vb), (a, va)]⟩ := by
    simp +decide [lruStep, lruPut, entFind, hab]
  have h3 : lruStep ⟨2, [(b, vb), (a, va)]⟩ (.get a) =
      ⟨2, [(a, va), (b, vb)]⟩ := by
    simp +decide [lruStep, lruGet, entFind, eraseEntry, hba]
  have h4 : lruStep ⟨2, [(a, va), (b, vb)]⟩ (.put c vc) =
      ⟨2, [(c, vc), (a, va)]⟩ := by
    simp +decide [lruStep, lruPut, entFind, List.dropLast, hac, hbc]
  have hrun : lruRun 2 [.put a va, .put b vb, .get a, .put c vc] =
      ⟨2, [(c, vc), (a, va)]⟩ := by
    rw [lruRun]
    simp only [lruRunFrom, h1, h2, h3, h4]
  exact ⟨hrun, by rw [hrun]; rfl⟩

/-- Witness for C3 at keys 1, 2, 3. -/
theorem c3_lru_eviction_order_witness :
    lruRun 2 [.put 1 10, .put 2 20, .get 1, .put 3 30] =
      { capacity := 2, entries := [(3, 30), (1, 10)] } ∧
    lruKeys (lruRun 2 [.put 1 10, .put 2 20, .get 1, .put 3 30]) = [3, 1] :=
  c3_lru_eviction_order 1 2 3 10 20 30 (by decide) (by decide) (by decide)

/-- C5: behavior at capacity 0.  The LFU cache and the custom LRU cache
treat every `put` as an observable no-op (the state never leaves the freshly
constructed one) and every `get` misses.  The design-document LRU cache also
always misses on `get`, but its `put` raises a `NullPointerException`
(`removeLast()` returns `null` and `lru.key` dereferences it), modelled by
`none` — the failing input of the claim. -/
theorem c5_capacity_zero :
    (∀ ops : List LFUOp, lfuRun 0 ops = some (lfuNew 0)) ∧
    (∀ k v : Int, lfuPut (lfuNew 0) k v = some (lfuNew 0)) ∧
    (∀ k : Int, lfuGet (lfuNew 0) k = (-1, lfuNew 0)) ∧
    (∀ ops : List LRUOp, lruRun 0 ops = lruNew 0) ∧
    (∀ k v : Int, lruPut (lruNew 0) k v = lruNew 0) ∧
    (∀ k : Int, lruGet (lruNew 0) k = (none, lruNew 0)) ∧
    (∀ k : Int, mdGet (mdNew 0) k = (none, mdNew 0)) ∧
    mdPut (mdNew 0) 1 1 = none := by
  have hstepF : ∀ op, lfuStep (lfuNew 0) op = some (lfuNew 0) := by
    intro op; cases op <;> rfl
  have hrunF : ∀ ops : List LFUOp, lfuRunFrom (lfuNew 0) ops = some (lfuNew 0) := by
    intro ops
    induction ops with
    | nil => rfl
    | cons op ops ih => simp only [lfuRunFrom, hstepF op]; exact ih
  have hstepL : ∀ op, lruStep (lruNew 0) op = lruNew 0 := by
    intro op; cases op <;> rfl
  have hrunL : ∀ ops : List LRUOp, lruRunFrom (lruNew 0) ops = lruNew 0 := by
    intro ops
    induction ops with
    | nil => rfl
    | cons op ops ih => simp only [lruRunFrom, hstepL op]; exact ih
  exact ⟨fun ops => hrunF ops, fun k v => rfl, fun k => rfl,
    fun ops => hrunL ops, fun k v => rfl, fun k => rfl, fun k => rfl, rfl⟩

/-- C6 counterexample: constructing with the negative capacity −1 does not
fail — each constructor returns an ordinary cache state (there is no
validation and no error path), and operations proceed on it. -/
theorem c6_counterexample :
    lfuNew (-1) = { capacity := -1, minFrequency := 0, freqLists := [] } ∧
    lruNew (-1) = { capacity := -1, entries := [] } ∧
    mdNew (-1) = { capacity := -1, entries := [] } ∧
    lfuPut (lfuNew (-1)) 1 2 =
      some { capacity := -1, minFrequency := 1, freqLists := [(1, [(1, 2)])] } ∧
    lruPut (lruNew (-1)) 1 2 = { capacity := -1, entries := [] } := by
  refine ⟨rfl, rfl, rfl, ?_, ?_⟩ <;> decide

/-- C6 amended: no constructor validates its capacity argument.
Construction always succeeds — negative capacities included — storing the
given capacity with empty structures; capacity zero succeeds likewise. -/
theorem c6_construction_unvalidated (c : Int) :
    lfuNew c = { capacity := c, minFrequency := 0, freqLists := [] } ∧
    lruNew c = { capacity := c, entries := [] } ∧
    mdNew c = { capacity := c, entries := [] } :=
  ⟨rfl, rfl, rfl⟩

theorem lfuRun_ghost_inv (cap : Int) (ops : List LFUOp) {s : LFUCache}
    (hrun : lfuRun cap ops = some s) :
    ∃ a : LFUInst, a.st = s ∧ LFUInstInv a := by
  obtain ⟨a, hIrun, hinv, -⟩ := lfuIRun_inv cap ops
  have hst := lfuIRunFrom_st (lfuINew cap) ops
  rw [lfuIRun] at hIrun
  rw [hIrun] at hst
  refine ⟨a, ?_, hinv⟩
  have h2 : lfuRunFrom (lfuINew cap).st ops = some a.st := by
    rw [← hst]; rfl
  have h3 : lfuRun cap ops = some a.st := by rw [lfuRun]; exact h2
  rw [hrun] at h3
  exact (Option.some.inj h3).symm

/-- C7: `put` on a present key overwrites the value, leaves the size
unchanged, and records an access exactly as `get` does — both call
`updateFrequency` in the LFU cache (the frequency rises by 1), and both
move the entry to the head of the recency list in the custom LRU cache.
Concretely, from an empty cache of any capacity ≥ 1, `put(a,1); put(a,2)`
leaves size 1 and `get(a) = 2`. -/
theorem c7_put_update :
    (∀ (cap : Int) (ops : List LFUOp) (s : LFUCache) (k : Int) (f : Nat)
      (v0 v : Int),
      lfuRun cap ops = some s → s.capacity ≠ 0 → lfuFind s k = some (f, v0) →
      lfuPut s k v = some (updateFrequency s k f v) ∧
      lfuGet s k = (v0, updateFrequency s k f v0) ∧
      lfuSize (updateFrequency s k f v) = lfuSize s ∧
      lfuFind (updateFrequency s k f v) k = some (f + 1, v)) ∧
    (∀ (s : LRUCache) (k v0 v : Int),
      entFind k s.entries = some v0 → (s.entries.length : Int) ≤ s.capacity →
      lruPut s k v = { s with entries := (k, v) :: eraseEntry k s.entries } ∧
      (lruGet s k).2 = { s with entries := (k, v0) :: eraseEntry k s.entries } ∧
      lruSize (lruPut s k v) = lruSize s) ∧
    (∀ cap : Int, 1 ≤ cap → ∀ a : Int,
      lfuRun cap [.put a 1, .put a 2] = some ⟨cap, 2, [(2, [(a, 2)])]⟩ ∧
      lfuSize (⟨cap, 2, [(2, [(a, 2)])]⟩ : LFUCache) = 1 ∧
      (lfuGet ⟨cap, 2, [(2, [(a, 2)])]⟩ a).1 = 2) ∧
    (∀ cap : Int, 1 ≤ cap → ∀ a : Int,
      lruRun cap [.put a 1, .put a 2] = ⟨cap, [(a, 2)]⟩ ∧
      lruSize (⟨cap, [(a, 2)]⟩ : LRUCache) = 1 ∧
      (lruGet ⟨cap, [(a, 2)]⟩ a).1 = some 2) := by
  refine ⟨?_, ?_, ?_, ?_⟩
  · intro cap ops s k f v0 v hrun hcap hfind
    obtain ⟨a, rfl, hinv⟩ := lfuRun_ghost_inv cap ops hrun
    obtain ⟨-, -, -, hfind', hsize', -, -⟩ :=
      updateFrequency_ghost v hinv.stInv
        hinv.touchBound hinv.touchSorted hfind
    refine ⟨?_, ?_, hsize', hfind'⟩
    · simp only [lfuPut, if_neg hcap, hfind]
    · simp only [lfuGet, hfind]
  · intro s k v0 v hfind hsize
    have hlen := eraseEntry_length hfind
    have hcond : ¬((((k, v) :: eraseEntry k s.entries).length : Int) >
        s.capacity) := by
      simp
      omega
    refine ⟨?_, ?_, ?_⟩
    · simp only [lruPut, hfind, if_neg hcond]
    · simp only [lruGet, hfind]
    · rw [lruPut]
      simp only [hfind, if_neg hcond]
      simp [lruSize]
      omega
  · intro cap hcap a
    have hcap0 : ¬(cap = 0) := by omega
    have hsz0 : ¬((0 : Int) = cap) := by omega
    have h1 : lfuStep (lfuNew cap) (.put a 1) =
        some ⟨cap, 1, [(1, [(a, 1)])]⟩ := by
      simp [lfuStep, lfuPut, lfuNew, lfuFind, lfuFindAux, lfuSize, lfuEntries,
        bsEntries, addNodeToFrequencyList, alookup, aset, hcap0, hsz0]
    have h2 : lfuStep ⟨cap, 1, [(1, [(a, 1)])]⟩ (.put a 2) =
        some ⟨cap, 2, [(2, [(a, 2)])]⟩ := by
      simp [lfuStep, lfuPut, lfuFind, lfuFindAux, entFind, updateFrequency,
        alookup, aerase, eraseEntry, addNodeToFrequencyList, aset, hcap0]
    refine ⟨?_, rfl, by simp [lfuGet, lfuFind, lfuFindAux, entFind]⟩
    rw [lfuRun]
    simp only [lfuRunFrom, h1, h2]
  · intro cap hcap a
    have hgt : ¬((1 : Int) > cap) := by omega
    have h1 : lruStep (lruNew cap) (.put a 1) = ⟨cap, [(a, 1)]⟩ := by
      simp [lruStep, lruPut, lruNew, entFind, hgt]
    have h2 : lruStep ⟨cap, [(a, 1)]⟩ (.put a 2) = ⟨cap, [(a, 2)]⟩ := by
      simp [lruStep, lruPut, entFind, eraseEntry, hgt]
    refine ⟨?_, rfl, by simp [lruGet, entFind]⟩
    rw [lruRun]
    simp only [lruRunFrom, h1, h2]

/-- Witness for C7 on concrete caches. -/
theorem c7_put_update_witness :
    (lfuPut (⟨1, 1, [(1, [(7, 1)])]⟩ : LFUCache) 7 2 =
        some (updateFrequency ⟨1, 1, [(1, [(7, 1)])]⟩ 7 1 2) ∧
      lfuGet (⟨1, 1, [(1, [(7, 1)])]⟩ : LFUCache) 7 =
        (1, updateFrequency ⟨1, 1, [(1, [(7, 1)])]⟩ 7 1 1) ∧
      lfuSize (updateFrequency ⟨1, 1, [(1, [(7, 1)])]⟩ 7 1 2) =
        lfuSize (⟨1, 1, [(1, [(7, 1)])]⟩ : LFUCache) ∧
      lfuFind (updateFrequency ⟨1, 1, [(1, [(7, 1)])]⟩ 7 1 2) 7 =
        some (1 + 1, 2)) ∧
    (lruPut (⟨2, [(7, 1)]⟩ : LRUCache) 7 2 =
        (⟨2, (7, 2) :: eraseEntry 7 [(7, 1)]⟩ : LRUCache) ∧
      (lruGet (⟨2, [(7, 1)]⟩ : LRUCache) 7).2 =
        (⟨2, (7, 1) :: eraseEntry 7 [(7, 1)]⟩ : LRUCache) ∧
      lruSize (lruPut (⟨2, [(7, 1)]⟩ : LRUCache) 7 2) =
        lruSize (⟨2, [(7, 1)]⟩ : LRUCache)) ∧
    (lfuRun 1 [.put 9 1, .put 9 2] = some ⟨1, 2, [(2, [(9, 2)])]⟩ ∧
      lfuSize (⟨1, 2, [(2, [(9, 2)])]⟩ : LFUCache) = 1 ∧
      (lfuGet ⟨1, 2, [(2, [(9, 2)])]⟩ 9).1 = 2) ∧
    (lruRun 1 [.put 9 1, .put 9 2] = ⟨1, [(9, 2)]⟩ ∧
      lruSize (⟨1, [(9, 2)]⟩ : LRUCache) = 1 ∧
      (lruGet ⟨1, [(9, 2)]⟩ 9).1 = some 2) :=
  ⟨c7_put_update.1 1 [.put 7 1] ⟨1, 1, [(1, [(7, 1)])]⟩ 7 1 1 2
      (by decide) (by decide) (by decide),
    c7_put_update.2.1 ⟨2, [(7, 1)]⟩ 7 1 2 (by decide) (by decide),
    c7_put_update.2.2.1 1 (by decide) 9,
    c7_put_update.2.2.2 1 (by decide) 9⟩

/-- C8: `get` of an absent key returns each implementation's miss result
(`-1` for the LFU cache, `null` for the two LRU caches), never raises, and
leaves the entire cache state unchanged. -/
theorem c8_get_miss (sF : LFUCache) (sL : LRUCache) (sM : MdCache)
    (k1 k2 k3 : Int) (hF : lfuFind sF k1 = none)
    (hL : entFind k2 sL.entries = none) (hM : entFind k3 sM.entries = none) :
    lfuGet sF k1 = (-1, sF) ∧ lruGet sL k2 = (none, sL) ∧
    mdGet sM k3 = (none, sM) := by
  refine ⟨?_, ?_, ?_⟩
  · simp only [lfuGet, hF]
  · simp only [lruGet, hL]
  · simp only [mdGet, hM]

/-- Witness for C8 on concrete non-empty caches and the absent key 5. -/
theorem c8_get_miss_witness :
    lfuGet (⟨2, 1, [(1, [(1, 10)])]⟩ : LFUCache) 5 =
      (-1, (⟨2, 1, [(1, [(1, 10)])]⟩ : LFUCache)) ∧
    lruGet (⟨2, [(1, 10)]⟩ : LRUCache) 5 =
      (none, (⟨2, [(1, 10)]⟩ : LRUCache)) ∧
    mdGet (⟨2, [(1, 10)]⟩ : MdCache) 5 =
      (none, (⟨2, [(1, 10)]⟩ : MdCache)) :=
  c8_get_miss ⟨2, 1, [(1, [(1, 10)])]⟩ ⟨2, [(1, 10)]⟩ ⟨2, [(1, 10)]⟩ 5 5 5
    (by decide) (by decide) (by decide)

/-- C9: `remove` of an absent key on the design-document LRU cache is a
perfect no-op — it never throws and returns the state unchanged. -/
theorem c9_remove_absent_noop (s : MdCache) (k : Int)
    (h : entFind k s.entries = none) : mdRemove s k = s := by
  simp only [mdRemove, h]

/-- Witness for C9 on a concrete non-empty cache and the absent key 5. -/
theorem c9_remove_absent_noop_witness :
    mdRemove (⟨2, [(1, 10), (3, 30)]⟩ : MdCache) 5 =
      (⟨2, [(1, 10), (3, 30)]⟩ : MdCache) :=
  c9_remove_absent_noop ⟨2, [(1, 10), (3, 30)]⟩ 5 (by decide)

/-- C10: the LFU miss sentinel collides with the value domain.  After
`put(5, -1)` at capacity 1, key 5 is present yet `get(5)` returns `-1` —
exactly what `get(6)` returns for the absent key 6, so the two outcomes are
indistinguishable to a caller. -/
theorem c10_sentinel_collision :
    lfuRun 1 [.put 5 (-1)] = some (⟨1, 1, [(1, [(5, -1)])]⟩ : LFUCache) ∧
    (lfuFind (⟨1, 1, [(1, [(5, -1)])]⟩ : LFUCache) 5).isSome = true ∧
    (lfuGet (⟨1, 1, [(1, [(5, -1)])]⟩ : LFUCache) 5).1 = -1 ∧
    lfuFind (⟨1, 1, [(1, [(5, -1)])]⟩ : LFUCache) 6 = none ∧
    (lfuGet (⟨1, 1, [(1, [(5, -1)])]⟩ : LFUCache) 6).1 = -1 := by
  decide
